import Mathlib

/-!
Verification of the travertino style/node core against its specification.

The development shallowly embeds the two source modules:

* `travertino/declaration.py` — the `Choices` validation engine, the
  `validated_property` descriptor (get/set/delete semantics over a
  per-instance sparse store plus an `apply` notification hook), the
  `directional_property` fan-out descriptor, and the dict-like pieces of
  `BaseStyle` (`__getitem__`, `__setitem__`, `__contains__`, `reapply`).
* `travertino/node.py` — the `Node` tree (parent/root/children pointers and
  the `add`/`insert`/`remove`/`clear` mutations with `_set_root`
  propagation), embedded as a forest of integer-identified records.

Python's mutable heap is made explicit: style operations thread a
`StyleState` and return `StyleState × Option PyErr` (an exception leaves the
mutations performed so far in place, exactly as in Python); node operations
act on an association list from node ids to records.  The external color
parser (`travertino/colors.py` is not part of the sources here and the spec
treats it as a collaborator) is threaded as a function parameter `cf`.
Python floats are rendered as rationals; no theorem below depends on float
rounding.  The recursive descent of `_set_root` and of nested property
lookups is expressed with an explicit fuel argument; the operations hand it
enough fuel for every acyclic state, and the theorems about them carry the
acyclicity hypotheses under which the fuel is provably sufficient.
-/

namespace Travertino

/-- Python runtime values as they flow through the declaration engine:
strings, ints, floats (as rationals), tuples and None. -/
inductive PyVal where
  | pstr (s : String)
  | pint (n : Int)
  | pfloat (q : Rat)
  | ptuple (l : List PyVal)
  | pnone

-- Structural equality on PyVal, backing the DecidableEq instance.
mutual

def pbeq : PyVal → PyVal → Bool
  | .pstr a, .pstr b => decide (a = b)
  | .pint a, .pint b => decide (a = b)
  | .pfloat a, .pfloat b => decide (a = b)
  | .ptuple a, .ptuple b => pbeqL a b
  | .pnone, .pnone => true
  | _, _ => false

def pbeqL : List PyVal → List PyVal → Bool
  | [], [] => true
  | x :: xs, y :: ys => pbeq x y && pbeqL xs ys
  | _, _ => false

end

mutual

theorem pbeq_iff : ∀ a b, pbeq a b = true ↔ a = b
  | .pstr _, b => by cases b <;> simp [pbeq]
  | .pint _, b => by cases b <;> simp [pbeq]
  | .pfloat _, b => by cases b <;> simp [pbeq]
  | .pnone, b => by cases b <;> simp [pbeq]
  | .ptuple l, b => by
      cases b <;> simp only [pbeq] <;>
        simp only [Bool.false_eq_true, false_iff, PyVal.ptuple.injEq, reduceCtorEq,
          not_false_eq_true]
      exact pbeqL_iff l _

theorem pbeqL_iff : ∀ l m, pbeqL l m = true ↔ l = m
  | [], [] => by simp [pbeqL]
  | [], _ :: _ => by simp [pbeqL]
  | _ :: _, [] => by simp [pbeqL]
  | x :: xs, y :: ys => by
      simp only [pbeqL, Bool.and_eq_true, List.cons.injEq]
      exact and_congr (pbeq_iff x y) (pbeqL_iff xs ys)

end

instance : DecidableEq PyVal := fun a b =>
  decidable_of_iff (pbeq a b = true) (pbeq_iff a b)

-- Python == on the values above: numbers compare across int/float, tuples
-- compare elementwise, different shapes are unequal.
mutual

def pyEq : PyVal → PyVal → Bool
  | .pstr a, .pstr b => decide (a = b)
  | .pint a, .pint b => decide (a = b)
  | .pfloat a, .pfloat b => decide (a = b)
  | .pint a, .pfloat b => decide ((a : Rat) = b)
  | .pfloat a, .pint b => decide (a = (b : Rat))
  | .ptuple a, .ptuple b => pyEqL a b
  | .pnone, .pnone => true
  | _, _ => false

def pyEqL : List PyVal → List PyVal → Bool
  | [], [] => true
  | x :: xs, y :: ys => pyEq x y && pyEqL xs ys
  | _, _ => false

end

mutual

theorem pyEq_refl : ∀ v, pyEq v v = true
  | .pstr _ => by simp [pyEq]
  | .pint _ => by simp [pyEq]
  | .pfloat _ => by simp [pyEq]
  | .ptuple l => by simp only [pyEq]; exact pyEqL_refl l
  | .pnone => by simp [pyEq]

theorem pyEqL_refl : ∀ l, pyEqL l l = true
  | [] => rfl
  | x :: xs => by
      simp only [pyEqL, Bool.and_eq_true]
      exact ⟨pyEq_refl x, pyEqL_refl xs⟩

end

/-- Python `str.strip()`: drop leading and trailing whitespace.  Expressed
over the character list so it reduces by computation in proofs. -/
def pyStrip (s : String) : String :=
  String.mk (((s.data.dropWhile Char.isWhitespace).reverse.dropWhile
    Char.isWhitespace).reverse)

/-- Reads a nonempty all-digit character list as a natural number. -/
def digitsToNat (t : List Char) : Option Nat :=
  if t ≠ [] ∧ t.all Char.isDigit then
    some (t.foldl (fun a c => a * 10 + (c.toNat - 48)) 0)
  else none

/-- Python `int(string)`: optional sign and decimal digits, surrounding
whitespace allowed (digit-group underscores are not exercised by any
claim and are not modelled). -/
def pyIntParse (s : String) : Option Int :=
  match (pyStrip s).data with
  | '-' :: t => (digitsToNat t).map (fun n => -(n : Int))
  | '+' :: t => (digitsToNat t).map (fun n => (n : Int))
  | t => (digitsToNat t).map (fun n => (n : Int))

/-- Python `int(value)`: ints pass through, floats truncate toward zero,
strings parse as decimal integers; any other shape fails
(`TypeError`/`ValueError`, both caught by the caller). -/
def pyToInt : PyVal → Option Int
  | .pint n => some n
  | .pfloat q => some (if 0 ≤ q then q.floor else q.ceil)
  | .pstr s => pyIntParse s
  | _ => none

/-- Decimal fraction parser backing the string case of Python
`float(value)`: an optional sign, digits, and an optional fractional part.
(The exotic float literal forms are never exercised by the claims.) -/
def parseDecimal (s : String) : Option Rat :=
  let core (t : List Char) : Option Rat :=
    match t.span (·.isDigit) with
    | (intPart, rest) =>
      let intVal : Option Nat :=
        if intPart.isEmpty then none
        else some (intPart.foldl (fun a c => a * 10 + (c.toNat - 48)) 0)
      match rest with
      | [] => (intVal.map (fun n => (n : Rat)))
      | '.' :: fracs =>
        if fracs.all (·.isDigit) ∧ ¬ (intPart.isEmpty ∧ fracs.isEmpty) then
          let fv : Nat := fracs.foldl (fun a c => a * 10 + (c.toNat - 48)) 0
          some ((intVal.getD 0 : Rat) + (fv : Rat) / ((10 : Rat) ^ fracs.length))
        else none
      | _ => none
  match (pyStrip s).data with
  | '-' :: t => (core t).map (fun q => -q)
  | '+' :: t => core t
  | t => core t

/-- Python `float(value)`: ints widen, floats pass through, strings parse
as decimals; any other shape fails. -/
def pyToFloat : PyVal → Option Rat
  | .pint n => some (n : Rat)
  | .pfloat q => some q
  | .pstr s => parseDecimal s
  | _ => none

/-- The error kinds raised by the embedded code paths. -/
inductive PyErr where
  | valueError
  | typeError
  | keyError
  | nameError
  | recursionError
  deriving Repr, DecidableEq

instance {ε α : Type} [DecidableEq ε] [DecidableEq α] :
    DecidableEq (Except ε α) := fun a b =>
  match a, b with
  | .ok x, .ok y =>
    if h : x = y then isTrue (by rw [h])
    else isFalse (fun hc => h (by injection hc))
  | .error x, .error y =>
    if h : x = y then isTrue (by rw [h])
    else isFalse (fun hc => h (by injection hc))
  | .ok _, .error _ => isFalse (fun hc => Except.noConfusion hc)
  | .error _, .ok _ => isFalse (fun hc => Except.noConfusion hc)

/-- The allowable-values declaration of one property: a list of symbolic
constants plus flags accepting free strings, integers, numbers and colors
(Choices.__init__ in declaration.py). -/
structure Choices where
  constants : List PyVal
  string : Bool := false
  integer : Bool := false
  number : Bool := false
  color : Bool := false
  deriving DecidableEq

/-- Choices.validate: try the string, integer, number and color branches in
that order (a coercion failure inside a branch falls through), then compare
against each symbolic constant with Python equality; raise ValueError if
everything fails.  The color parser is the collaborator parameter cf, whose
failure is the caught ValueError of the source. -/
def Choices.validate (cf : PyVal → Option PyVal) (c : Choices) (v : PyVal) :
    Except PyErr PyVal :=
  let s1 : Option PyVal :=
    if c.string then
      match v with
      | .pstr s => some (.pstr (pyStrip s))
      | _ => none
    else none
  let s2 : Option PyVal := if c.integer then (pyToInt v).map PyVal.pint else none
  let s3 : Option PyVal := if c.number then (pyToFloat v).map PyVal.pfloat else none
  let s4 : Option PyVal := if c.color then cf v else none
  let s5 : Option PyVal := c.constants.find? (fun k => pyEq v k)
  match s1 <|> s2 <|> s3 <|> s4 <|> s5 with
  | some r => .ok r
  | none => .error .valueError

/-- A validated_property descriptor: its bound attribute name, its Choices,
and its initial value (pnone when none was supplied). -/
structure validated_property where
  name : String
  choices : Choices
  initial : PyVal := .pnone
  deriving DecidableEq

/-- validated_property.validate: delegate to the Choices and re-raise the
ValueError (the source only rewords the message). -/
def validated_property.validate (cf : PyVal → Option PyVal)
    (p : validated_property) (v : PyVal) : Except PyErr PyVal :=
  match p.choices.validate cf v with
  | .ok r => .ok r
  | .error _ => .error .valueError

/-- The per-instance mutable state of one style object: the sparse store of
explicitly-set property values (the _-prefixed instance attributes) and the
chronological list of apply(name, value) notifications it has issued. -/
structure StyleState where
  stored : List (String × PyVal) := []
  applyLog : List (String × PyVal) := []
  deriving DecidableEq

/-- Looks a name up in a sparse attribute store. -/
def lookupL (l : List (String × PyVal)) (n : String) : Option PyVal :=
  (l.find? (fun kv => kv.1 == n)).map (fun kv => kv.2)

/-- Reads the stored (explicitly set) value of a property, if any. -/
def lookupStored (s : StyleState) (n : String) : Option PyVal :=
  lookupL s.stored n

/-- Replace-or-append update of the sparse store. -/
def setStored : List (String × PyVal) → String → PyVal → List (String × PyVal)
  | [], n, v => [(n, v)]
  | (k, w) :: rest, n, v =>
    if k = n then (n, v) :: rest else (k, w) :: setStored rest n v

/-- validated_property.__get__: the stored value if one is set, else the
initial value. -/
def validated_property.get (p : validated_property) (s : StyleState) : PyVal :=
  let value := (lookupStored s p.name).getD .pnone
  if value = .pnone then p.initial else value

/-- validated_property.__set__: reject Python None, validate, and only if
the normalized value differs (Python !=) from the currently stored one,
store it and notify apply.  An error leaves the state untouched. -/
def validated_property.set (cf : PyVal → Option PyVal) (p : validated_property)
    (s : StyleState) (v : PyVal) : StyleState × Option PyErr :=
  if v = .pnone then (s, some .valueError)
  else
    match p.validate cf v with
    | .error e => (s, some e)
    | .ok nv =>
      if pyEq nv ((lookupStored s p.name).getD .pnone) then (s, none)
      else
        ({ stored := setStored s.stored p.name nv,
           applyLog := s.applyLog ++ [(p.name, nv)] }, none)

/-- validated_property.__delete__: delete the stored attribute; only when it
was present (the delattr did not raise) notify apply with the initial
value. -/
def validated_property.delete (p : validated_property) (s : StyleState) :
    StyleState :=
  if (lookupStored s p.name).isSome then
    { stored := s.stored.filter (fun kv => kv.1 ≠ p.name),
      applyLog := s.applyLog ++ [(p.name, p.initial)] }
  else s

/-- validated_property.is_set_on: whether a value is explicitly stored. -/
def validated_property.is_set_on (p : validated_property) (s : StyleState) :
    Bool :=
  (lookupStored s p.name).isSome

/-- A color collaborator that accepts nothing, usable wherever a concrete
color parser is needed but the color branch is disabled. -/
def noColor : PyVal → Option PyVal := fun _ => none

/-- Opening curly brace character. -/
def lbrace : Char := Char.ofNat 123

/-- Closing curly brace character. -/
def rbrace : Char := Char.ofNat 125

/-- Substitution of every open-close brace pair by sub, the effect of
Python str.format with one positional argument as used by
directional_property.format. -/
def formatSub (sub : List Char) : List Char → List Char
  | [] => []
  | [c] => [c]
  | c :: c2 :: rest2 =>
    if c = lbrace ∧ c2 = rbrace then sub ++ formatSub sub rest2
    else c :: formatSub sub (c2 :: rest2)

/-- Python name.replace("-", "_") as used by the dict-like interface of
BaseStyle. -/
def underscoreName (n : String) : String :=
  String.mk (n.data.map (fun c => if c = '-' then '_' else c))

/-- A directional_property descriptor: its bound attribute name and the
format template generating the four physical sub-property names. -/
structure directional_property where
  name : String
  name_format : String
  deriving DecidableEq

/-- directional_property.format: substitute an underscore-prefixed
direction into the name template. -/
def directional_property.format (d : directional_property) (dir : String) :
    String :=
  String.mk (formatSub ("_" ++ dir).data d.name_format.data)

/-- Modelled from the spec: the TOP, RIGHT, BOTTOM, LEFT constants come
from travertino/constants.py, which is not among the sources; the spec
fixes the order (top, right, bottom, left) and the tests show the
constants are the plain direction strings. -/
def DIRECTIONS : List String := ["top", "right", "bottom", "left"]

/-- The CSS-shorthand assignment schemes of directional_property, mapping
the tuple length to the source index used for each direction. -/
def ASSIGNMENT_SCHEME : Nat → Option (List Nat)
  | 1 => some [0, 0, 0, 0]
  | 2 => some [0, 1, 0, 1]
  | 3 => some [0, 1, 2, 1]
  | 4 => some [0, 1, 2, 3]
  | _ => none

/-- One style schema: the primary property descriptors (the class's
_PROPERTIES) and the directional descriptors (together with the primary
ones forming _ALL_PROPERTIES). -/
structure Schema where
  props : List validated_property
  dirs : List directional_property
  deriving DecidableEq

/-- Finds the primary property descriptor bound to an attribute name. -/
def Schema.findProp (sch : Schema) (n : String) : Option validated_property :=
  sch.props.find? (fun p => p.name == n)

/-- Finds the directional property descriptor bound to an attribute name. -/
def Schema.findDir (sch : Schema) (n : String) : Option directional_property :=
  sch.dirs.find? (fun d => d.name == n)

/-- BaseStyle.__getitem__ (with the directional descriptor's __get__
inlined): normalize hyphens, then read the named descriptor; a directional
read recursively reads its four physical sub-properties, in (top, right,
bottom, left) order, into a tuple.  The fuel bounds the nesting depth of
directionals resolving to directionals, which in Python would recurse
forever (RecursionError) on a cyclic template. -/
def getItemFuel (sch : Schema) (s : StyleState) :
    Nat → String → Except PyErr PyVal
  | 0, _ => .error .recursionError
  | fuel + 1, name0 =>
    let name := underscoreName name0
    match sch.findProp name with
    | some p => .ok (p.get s)
    | none =>
      match sch.findDir name with
      | some d =>
        match getItemFuel sch s fuel (d.format "top") with
        | .error e => .error e
        | .ok vt =>
          match getItemFuel sch s fuel (d.format "right") with
          | .error e => .error e
          | .ok vr =>
            match getItemFuel sch s fuel (d.format "bottom") with
            | .error e => .error e
            | .ok vb =>
              match getItemFuel sch s fuel (d.format "left") with
              | .error e => .error e
              | .ok vl => .ok (.ptuple [vt, vr, vb, vl])
      | none => .error .keyError

/-- BaseStyle.__setitem__ (with the directional descriptor's __set__
inlined): normalize hyphens and dispatch; a primary write follows
validated_property.__set__; a directional write wraps a non-tuple into a
1-tuple, chooses the assignment scheme by length (ValueError when there is
none), and assigns the four physical sub-properties in (top, right,
bottom, left) order, stopping at the first error but keeping the
sub-assignments already performed, exactly as the Python loop does.  The
source's zip of DIRECTIONS with the scheme is unrolled here since both
lists always have length four. -/
def setItemFuel (cf : PyVal → Option PyVal) (sch : Schema) :
    Nat → StyleState → String → PyVal → StyleState × Option PyErr
  | 0, s, _, _ => (s, some .recursionError)
  | fuel + 1, s, name0, v =>
    let name := underscoreName name0
    match sch.findProp name with
    | some p => p.set cf s v
    | none =>
      match sch.findDir name with
      | some d =>
        let vs : List PyVal := match v with | .ptuple l => l | x => [x]
        match ASSIGNMENT_SCHEME vs.length with
        | none => (s, some .valueError)
        | some order =>
          match setItemFuel cf sch fuel s (d.format "top")
              (vs.getD (order.getD 0 0) .pnone) with
          | (s1, some e) => (s1, some e)
          | (s1, none) =>
            match setItemFuel cf sch fuel s1 (d.format "right")
                (vs.getD (order.getD 1 0) .pnone) with
            | (s2, some e) => (s2, some e)
            | (s2, none) =>
              match setItemFuel cf sch fuel s2 (d.format "bottom")
                  (vs.getD (order.getD 2 0) .pnone) with
              | (s3, some e) => (s3, some e)
              | (s3, none) =>
                setItemFuel cf sch fuel s3 (d.format "left")
                  (vs.getD (order.getD 3 0) .pnone)
      | none => (s, some .keyError)

/-- Fuel sufficient for every terminating chain of directional templates:
each strictly-nested level must pass through a distinct directional
descriptor. -/
def styleFuel (sch : Schema) : Nat := sch.dirs.length + 2

/-- BaseStyle.__getitem__ at the standard fuel. -/
def getItem (sch : Schema) (s : StyleState) (name : String) :
    Except PyErr PyVal :=
  getItemFuel sch s (styleFuel sch) name

/-- BaseStyle.__setitem__ at the standard fuel. -/
def setItem (cf : PyVal → Option PyVal) (sch : Schema) (s : StyleState)
    (name : String) (v : PyVal) : StyleState × Option PyErr :=
  setItemFuel cf sch (styleFuel sch) s name v

/-- Python hasattr on a style instance, restricted to the attributes the
embedding tracks: the _-prefixed storage slots and the class-level
descriptors (reading a descriptor always succeeds). -/
def hasattrS (sch : Schema) (s : StyleState) (attr : String) : Bool :=
  s.stored.any (fun kv => ("_" ++ kv.1) == attr) ||
    (sch.findProp attr).isSome || (sch.findDir attr).isSome

/-- directional_property.is_set_on: hasattr of the four format names.  As
in the source the names lack the underscore prefix of the storage slots,
so they hit the class descriptors instead. -/
def directional_property.is_set_on (d : directional_property) (sch : Schema)
    (s : StyleState) : Bool :=
  DIRECTIONS.any (fun dir => hasattrS sch s (d.format dir))

/-- BaseStyle.__contains__: the raw name (no hyphen normalization) must be
a known property and its descriptor's is_set_on must hold. -/
def containsS (sch : Schema) (s : StyleState) (name : String) : Bool :=
  match sch.findProp name with
  | some p => p.is_set_on s
  | none =>
    match sch.findDir name with
    | some d => d.is_set_on sch s
    | none => false

/-- The loop of BaseStyle.reapply: apply(name, self[name]) for every
primary property; a lookup failure aborts the loop but keeps the apply
calls already issued. -/
def reapplyLoop (sch : Schema) :
    List validated_property → StyleState → StyleState × Option PyErr
  | [], s => (s, none)
  | p :: rest, s =>
    match getItem sch s p.name with
    | .error e => (s, some e)
    | .ok v =>
      reapplyLoop sch rest { s with applyLog := s.applyLog ++ [(p.name, v)] }

/-- BaseStyle.reapply: iterate over all primary properties (the source
iterates self._PROPERTIES, not merely the currently-set ones). -/
def reapply (sch : Schema) (s : StyleState) : StyleState × Option PyErr :=
  reapplyLoop sch sch.props s

/-- Literal open-close brace pair used in name templates. -/
def bracePair : String := String.mk [lbrace, rbrace]

/-- Integer-only choices. -/
def chInt : Choices := { constants := [], integer := true }

/-- Concrete integer-only property used by several witnesses. -/
def intProp : validated_property :=
  { name := "int_prop", choices := chInt, initial := .pint 0 }

/-- Style state holding an explicit value for int_prop. -/
def intPropSet : StyleState :=
  { stored := [("int_prop", .pint 5)], applyLog := [] }

/-- String-only choices. -/
def chStr : Choices := { constants := [], string := true }

/-- The margin_top physical sub-property of the margin test schema. -/
def marginTop : validated_property :=
  { name := "margin_top", choices := chInt, initial := .pint 0 }

/-- The margin_right physical sub-property. -/
def marginRight : validated_property :=
  { name := "margin_right", choices := chInt, initial := .pint 0 }

/-- The margin_bottom physical sub-property. -/
def marginBottom : validated_property :=
  { name := "margin_bottom", choices := chInt, initial := .pint 0 }

/-- The margin_left physical sub-property. -/
def marginLeft : validated_property :=
  { name := "margin_left", choices := chInt, initial := .pint 0 }

/-- The margin directional property, template "margin{}". -/
def margin : directional_property :=
  { name := "margin", name_format := "margin" ++ bracePair }

/-- A schema with the margin directional property over integer-valued
physical sub-properties, the shape of the spec's margin scenario. -/
def marginSchema : Schema :=
  { props := [marginTop, marginRight, marginBottom, marginLeft],
    dirs := [margin] }

/-- A one-property schema over int_prop. -/
def intSchema : Schema := { props := [intProp], dirs := [] }

/-- A string property without an initial value. -/
def strProp : validated_property :=
  { name := "str_prop", choices := chStr, initial := .pnone }

/-- A two-property schema over int_prop and str_prop. -/
def twoSchema : Schema := { props := [intProp, strProp], dirs := [] }

/-- A state of twoSchema with only int_prop explicitly set. -/
def twoState : StyleState := { stored := [("int_prop", .pint 7)], applyLog := [] }

/-- The font_family property of the hyphenation test schema. -/
def fontProp : validated_property :=
  { name := "font_family", choices := chStr, initial := .pnone }

/-- A schema holding font_family. -/
def fontSchema : Schema := { props := [fontProp], dirs := [] }

/-- A state of fontSchema with font_family explicitly set. -/
def fontState : StyleState :=
  { stored := [("font_family", .pstr "serif")], applyLog := [] }

theorem lookupL_setStored_self (l : List (String × PyVal)) (n : String)
    (v : PyVal) :
    lookupL (setStored l n v) n = some v := by
  induction l with
  | nil => simp [setStored, lookupL]
  | cons kv rest ih =>
    by_cases h : kv.1 = n
    · simp [setStored, h, lookupL, List.find?]
    · simp only [setStored, if_neg h, lookupL]
      rw [List.find?_cons_of_neg]
      · exact ih
      · simpa using h

theorem lookupL_setStored_ne (l : List (String × PyVal)) (n m : String)
    (v : PyVal) (h : m ≠ n) :
    lookupL (setStored l m v) n = lookupL l n := by
  induction l with
  | nil =>
    simp only [setStored, lookupL]
    rw [List.find?_cons_of_neg _ (by simpa using h), List.find?_nil]
  | cons kv rest ih =>
    by_cases hk : kv.1 = m
    · have hkn : kv.1 ≠ n := by rw [hk]; exact h
      simp only [setStored, if_pos hk, lookupL]
      rw [List.find?_cons_of_neg _ (by simpa using h),
        List.find?_cons_of_neg _ (by simpa using hkn)]
    · simp only [setStored, if_neg hk, lookupL]
      by_cases hn : kv.1 = n
      · rw [List.find?_cons_of_pos _ (by simpa using hn),
          List.find?_cons_of_pos _ (by simpa using hn)]
      · rw [List.find?_cons_of_neg _ (by simpa using hn),
          List.find?_cons_of_neg _ (by simpa using hn)]
        exact ih

theorem lookupStored_set_stored (s : StyleState) (n : String) (v : PyVal)
    (log : List (String × PyVal)) :
    lookupStored { stored := setStored s.stored n v, applyLog := log } n =
      some v := by
  simp [lookupStored, lookupL_setStored_self]

theorem lookup_filter_ne (l : List (String × PyVal)) (n : String) :
    ((l.filter (fun kv => kv.1 ≠ n)).find? (fun kv => kv.1 == n)) = none := by
  rw [List.find?_eq_none]
  intro x hx
  rw [List.mem_filter] at hx
  simpa using hx.2

theorem getItemFuel_stored_only (sch : Schema) (st la lb : List (String × PyVal)) :
    ∀ fuel n, getItemFuel sch ⟨st, la⟩ fuel n = getItemFuel sch ⟨st, lb⟩ fuel n := by
  intro fuel
  induction fuel with
  | zero => intro n; rfl
  | succ fuel ih =>
    intro n
    simp only [getItemFuel]
    cases hp : sch.findProp (underscoreName n) with
    | some p => rfl
    | none =>
      cases hd : sch.findDir (underscoreName n) with
      | none => rfl
      | some d => simp only [ih]

theorem getItem_stored_only (sch : Schema) (st la lb : List (String × PyVal))
    (n : String) : getItem sch ⟨st, la⟩ n = getItem sch ⟨st, lb⟩ n :=
  getItemFuel_stored_only sch st la lb (styleFuel sch) n

theorem reapplyLoop_spec (sch : Schema) :
    ∀ (l : List validated_property) (st log : List (String × PyVal)),
      (∀ p ∈ l, getItem sch ⟨st, log⟩ p.name = .ok (p.get ⟨st, log⟩)) →
      reapplyLoop sch l ⟨st, log⟩ =
        (⟨st, log ++ l.map (fun p => (p.name, p.get ⟨st, log⟩))⟩, none) := by
  intro l
  induction l with
  | nil =>
    intro st log h
    simp [reapplyLoop]
  | cons p rest ih =>
    intro st log h
    have hp := h p (List.mem_cons_self p rest)
    simp only [reapplyLoop, hp]
    have hyp : ∀ q ∈ rest,
        getItem sch ⟨st, log ++ [(p.name, p.get ⟨st, log⟩)]⟩ q.name =
          .ok (q.get ⟨st, log ++ [(p.name, p.get ⟨st, log⟩)]⟩) := by
      intro q hq
      have h0 := h q (List.mem_cons_of_mem _ hq)
      rw [getItem_stored_only sch st _ log q.name]
      exact h0
    have hrec := ih st (log ++ [(p.name, p.get ⟨st, log⟩)]) hyp
    rw [hrec]
    rw [List.append_assoc]
    rfl

/-- C7 counterexample: on a schema whose only property int_prop is not set,
reapply still issues an apply call (with the initial value), refuting the
claim that only currently-set properties are replayed. -/
theorem C7_counterexample :
    validated_property.is_set_on intProp {} = false ∧
    (reapply intSchema {}).1.applyLog = [("int_prop", PyVal.pint 0)] := by
  exact ⟨rfl, by decide⟩

/-- C7 (amended): reapply invokes apply(name, current value) once for every
primary property of the schema, the unset ones included (they are replayed
with their initial value), and changes no stored state.  The hypothesis
states that each primary name resolves to its own descriptor through
__getitem__, which holds for every Python-realizable schema. -/
theorem C7_reapply_amended (sch : Schema) (s : StyleState)
    (hok : ∀ p ∈ sch.props, getItem sch s p.name = .ok (p.get s)) :
    reapply sch s =
      ({ s with applyLog :=
          s.applyLog ++ sch.props.map (fun p => (p.name, p.get s)) }, none) := by
  obtain ⟨st, log⟩ := s
  exact reapplyLoop_spec sch sch.props st log hok

/-- Witness for C7 (amended) on a two-property schema with one set and one
unset property: both are replayed. -/
theorem C7_reapply_amended_witness :
    (reapply twoSchema twoState).1.applyLog =
      [("int_prop", PyVal.pint 7), ("str_prop", PyVal.pnone)] ∧
    (reapply twoSchema twoState).2 = none := by
  rw [C7_reapply_amended twoSchema twoState (by decide)]
  exact ⟨rfl, rfl⟩

/-- C10: style["font-family"] succeeds (hyphens are normalized by
__getitem__) and returns the stored value of font_family, while
"font-family" in style is False because __contains__ compares the raw
hyphenated name against the property tables without normalization. -/
theorem C10_contains_skips_normalization (sch : Schema) (s : StyleState)
    (p : validated_property) (v : PyVal)
    (hp : sch.findProp "font_family" = some p)
    (hq : sch.findProp "font-family" = none)
    (hd : sch.findDir "font-family" = none)
    (hv : lookupStored s "font_family" = some v) (hvn : v ≠ .pnone) :
    getItem sch s "font-family" = .ok v ∧
    containsS sch s "font-family" = false := by
  have hname : p.name = "font_family" := by
    have h0 := List.find?_some hp
    simpa using h0
  constructor
  · show getItemFuel sch s (sch.dirs.length + 1 + 1) "font-family" = .ok v
    simp only [getItemFuel]
    have hu : underscoreName "font-family" = "font_family" := rfl
    rw [hu, hp]
    show Except.ok (p.get s) = Except.ok v
    unfold validated_property.get
    rw [hname, hv]
    simp [hvn]
  · unfold containsS
    rw [hq, hd]

/-- Witness for C10 on fontSchema with font_family set to "serif". -/
theorem C10_contains_skips_normalization_witness :
    getItem fontSchema fontState "font-family" = .ok (.pstr "serif") ∧
    containsS fontSchema fontState "font-family" = false :=
  C10_contains_skips_normalization fontSchema fontState fontProp (.pstr "serif")
    (by decide) (by decide) (by decide) (by decide) (by decide)

/-- The state after one storing write of value v to property n: the value
is stored and one apply call is logged. -/
def afterW (s : StyleState) (n : String) (v : PyVal) : StyleState :=
  { stored := setStored s.stored n v, applyLog := s.applyLog ++ [(n, v)] }

/-- The state after storing writes to the four margin sub-properties in
source order. -/
def after4 (s : StyleState) (va vb vc vd : PyVal) : StyleState :=
  afterW (afterW (afterW (afterW s "margin_top" va) "margin_right" vb)
    "margin_bottom" vc) "margin_left" vd

/-- The sequential assignment loop of directional_property.__set__
specialized to the margin schema: write the four sub-properties in (top,
right, bottom, left) order, stopping at the first error while keeping the
assignments already made. -/
def write4 (cf : PyVal → Option PyVal) (s : StyleState)
    (va vb vc vd : PyVal) : StyleState × Option PyErr :=
  match marginTop.set cf s va with
  | (s1, some e) => (s1, some e)
  | (s1, none) =>
    match marginRight.set cf s1 vb with
    | (s2, some e) => (s2, some e)
    | (s2, none) =>
      match marginBottom.set cf s2 vc with
      | (s3, some e) => (s3, some e)
      | (s3, none) => marginLeft.set cf s3 vd

theorem setItem_margin_of_pint (cf : PyVal → Option PyVal) (s : StyleState)
    (a : Int) :
    setItem cf marginSchema s "margin" (.pint a) =
      write4 cf s (.pint a) (.pint a) (.pint a) (.pint a) := rfl

theorem setItem_margin_of_pair (cf : PyVal → Option PyVal) (s : StyleState)
    (x y : PyVal) :
    setItem cf marginSchema s "margin" (.ptuple [x, y]) =
      write4 cf s x y x y := rfl

theorem setItem_margin_of_triple (cf : PyVal → Option PyVal) (s : StyleState)
    (x y z : PyVal) :
    setItem cf marginSchema s "margin" (.ptuple [x, y, z]) =
      write4 cf s x y z y := rfl

theorem setItem_margin_of_quad (cf : PyVal → Option PyVal) (s : StyleState)
    (x y z w : PyVal) :
    setItem cf marginSchema s "margin" (.ptuple [x, y, z, w]) =
      write4 cf s x y z w := rfl

theorem getItem_margin (s : StyleState) :
    getItem marginSchema s "margin" =
      .ok (.ptuple [marginTop.get s, marginRight.get s,
        marginBottom.get s, marginLeft.get s]) := rfl

theorem lookupStored_afterW_self (s : StyleState) (n : String) (v : PyVal) :
    lookupStored (afterW s n v) n = some v :=
  lookupL_setStored_self s.stored n v

theorem lookupStored_afterW_ne (s : StyleState) (n m : String) (v : PyVal)
    (h : n ≠ m) : lookupStored (afterW s n v) m = lookupStored s m :=
  lookupL_setStored_ne s.stored m n v h

theorem set_int_unset (cf : PyVal → Option PyVal) (p : validated_property)
    (s : StyleState) (a : Int) (n : String) (hn : p.name = n)
    (hch : p.choices = chInt) (hl : lookupStored s n = none) :
    p.set cf s (.pint a) = (afterW s n (.pint a), none) := by
  subst hn
  have hv : p.validate cf (.pint a) = .ok (.pint a) := by
    unfold validated_property.validate
    rw [hch]
    rfl
  simp only [validated_property.set, hv, hl, Option.getD_none, reduceCtorEq,
    if_false]
  rfl

theorem set_str_int_fails (cf : PyVal → Option PyVal) (p : validated_property)
    (s : StyleState) (z : String) (hch : p.choices = chInt)
    (hz : pyIntParse z = none) :
    p.set cf s (.pstr z) = (s, some .valueError) := by
  have hv : p.validate cf (.pstr z) = .error .valueError := by
    unfold validated_property.validate Choices.validate
    rw [hch]
    simp [chInt, pyToInt, hz]
  simp only [validated_property.set, hv, reduceCtorEq, if_false]

theorem write4_unset (cf : PyVal → Option PyVal) (s : StyleState)
    (a b c d : Int)
    (h1 : lookupStored s "margin_top" = none)
    (h2 : lookupStored s "margin_right" = none)
    (h3 : lookupStored s "margin_bottom" = none)
    (h4 : lookupStored s "margin_left" = none) :
    write4 cf s (.pint a) (.pint b) (.pint c) (.pint d) =
      (after4 s (.pint a) (.pint b) (.pint c) (.pint d), none) := by
  have e1 := set_int_unset cf marginTop s a "margin_top" rfl rfl h1
  have l2 : lookupStored (afterW s "margin_top" (.pint a)) "margin_right" =
      none := by
    rw [lookupStored_afterW_ne _ _ _ _ (by decide)]
    exact h2
  have e2 := set_int_unset cf marginRight
    (afterW s "margin_top" (.pint a)) b "margin_right" rfl rfl l2
  have l3 : lookupStored (afterW (afterW s "margin_top" (.pint a))
      "margin_right" (.pint b)) "margin_bottom" = none := by
    rw [lookupStored_afterW_ne _ _ _ _ (by decide),
      lookupStored_afterW_ne _ _ _ _ (by decide)]
    exact h3
  have e3 := set_int_unset cf marginBottom
    (afterW (afterW s "margin_top" (.pint a)) "margin_right" (.pint b)) c
    "margin_bottom" rfl rfl l3
  have l4 : lookupStored (afterW (afterW (afterW s "margin_top" (.pint a))
      "margin_right" (.pint b)) "margin_bottom" (.pint c)) "margin_left" =
      none := by
    rw [lookupStored_afterW_ne _ _ _ _ (by decide),
      lookupStored_afterW_ne _ _ _ _ (by decide),
      lookupStored_afterW_ne _ _ _ _ (by decide)]
    exact h4
  have e4 := set_int_unset cf marginLeft
    (afterW (afterW (afterW s "margin_top" (.pint a)) "margin_right"
      (.pint b)) "margin_bottom" (.pint c)) d "margin_left" rfl rfl l4
  simp only [write4, e1, e2, e3, e4]
  rfl

theorem after4_get (s : StyleState) (a b c d : Int) :
    marginTop.get (after4 s (.pint a) (.pint b) (.pint c) (.pint d)) =
        .pint a ∧
    marginRight.get (after4 s (.pint a) (.pint b) (.pint c) (.pint d)) =
        .pint b ∧
    marginBottom.get (after4 s (.pint a) (.pint b) (.pint c) (.pint d)) =
        .pint c ∧
    marginLeft.get (after4 s (.pint a) (.pint b) (.pint c) (.pint d)) =
        .pint d := by
  refine ⟨?_, ?_, ?_, ?_⟩ <;>
    · unfold validated_property.get after4
      first
      | rw [show lookupStored (afterW (afterW (afterW (afterW s "margin_top"
            (.pint a)) "margin_right" (.pint b)) "margin_bottom" (.pint c))
            "margin_left" (.pint d)) marginLeft.name = some (.pint d) from
            lookupStored_afterW_self _ _ _]
        rfl
      | rw [show lookupStored (afterW (afterW (afterW (afterW s "margin_top"
            (.pint a)) "margin_right" (.pint b)) "margin_bottom" (.pint c))
            "margin_left" (.pint d)) marginTop.name = some (.pint a) by
            rw [lookupStored_afterW_ne _ _ _ _ (by decide),
              lookupStored_afterW_ne _ _ _ _ (by decide),
              lookupStored_afterW_ne _ _ _ _ (by decide)]
            exact lookupStored_afterW_self _ _ _]
        rfl
      | rw [show lookupStored (afterW (afterW (afterW (afterW s "margin_top"
            (.pint a)) "margin_right" (.pint b)) "margin_bottom" (.pint c))
            "margin_left" (.pint d)) marginRight.name = some (.pint b) by
            rw [lookupStored_afterW_ne _ _ _ _ (by decide),
              lookupStored_afterW_ne _ _ _ _ (by decide)]
            exact lookupStored_afterW_self _ _ _]
        rfl
      | rw [show lookupStored (afterW (afterW (afterW (afterW s "margin_top"
            (.pint a)) "margin_right" (.pint b)) "margin_bottom" (.pint c))
            "margin_left" (.pint d)) marginBottom.name = some (.pint c) by
            rw [lookupStored_afterW_ne _ _ _ _ (by decide)]
            exact lookupStored_afterW_self _ _ _]
        rfl

/-- C8: on the margin directional property over the integer sub-properties
margin_top/right/bottom/left (starting from a state where none of them is
explicitly set), writing a scalar v reads back as (v, v, v, v); writing
(a, b) reads back (a, b, a, b) in (top, right, bottom, left) order;
(a, b, c) reads back (a, b, c, b); (a, b, c, d) is taken as-is; and a
5-tuple fails with the ValueError of directional_property.__set__ without
touching the state. -/
theorem C8_directional_expansion (cf : PyVal → Option PyVal) (s : StyleState)
    (a b c d e : Int)
    (h1 : lookupStored s "margin_top" = none)
    (h2 : lookupStored s "margin_right" = none)
    (h3 : lookupStored s "margin_bottom" = none)
    (h4 : lookupStored s "margin_left" = none) :
    getItem marginSchema (setItem cf marginSchema s "margin" (.pint a)).1
        "margin" = .ok (.ptuple [.pint a, .pint a, .pint a, .pint a]) ∧
    getItem marginSchema (setItem cf marginSchema s "margin"
        (.ptuple [.pint a, .pint b])).1 "margin" =
      .ok (.ptuple [.pint a, .pint b, .pint a, .pint b]) ∧
    getItem marginSchema (setItem cf marginSchema s "margin"
        (.ptuple [.pint a, .pint b, .pint c])).1 "margin" =
      .ok (.ptuple [.pint a, .pint b, .pint c, .pint b]) ∧
    getItem marginSchema (setItem cf marginSchema s "margin"
        (.ptuple [.pint a, .pint b, .pint c, .pint d])).1 "margin" =
      .ok (.ptuple [.pint a, .pint b, .pint c, .pint d]) ∧
    setItem cf marginSchema s "margin"
        (.ptuple [.pint a, .pint b, .pint c, .pint d, .pint e]) =
      (s, some .valueError) := by
  refine ⟨?_, ?_, ?_, ?_, rfl⟩
  · simp only [setItem_margin_of_pint, write4_unset cf s a a a a h1 h2 h3 h4,
      getItem_margin, (after4_get s a a a a).1, (after4_get s a a a a).2.1,
      (after4_get s a a a a).2.2.1, (after4_get s a a a a).2.2.2]
  · simp only [setItem_margin_of_pair, write4_unset cf s a b a b h1 h2 h3 h4,
      getItem_margin, (after4_get s a b a b).1, (after4_get s a b a b).2.1,
      (after4_get s a b a b).2.2.1, (after4_get s a b a b).2.2.2]
  · simp only [setItem_margin_of_triple, write4_unset cf s a b c b h1 h2 h3 h4,
      getItem_margin, (after4_get s a b c b).1, (after4_get s a b c b).2.1,
      (after4_get s a b c b).2.2.1, (after4_get s a b c b).2.2.2]
  · simp only [setItem_margin_of_quad, write4_unset cf s a b c d h1 h2 h3 h4,
      getItem_margin, (after4_get s a b c d).1, (after4_get s a b c d).2.1,
      (after4_get s a b c d).2.2.1, (after4_get s a b c d).2.2.2]

/-- Witness for C8 with the 2-tuple and the 5-tuple at concrete inputs. -/
theorem C8_directional_expansion_witness :
    getItem marginSchema (setItem noColor marginSchema {} "margin"
        (.ptuple [.pint 1, .pint 2])).1 "margin" =
      .ok (.ptuple [.pint 1, .pint 2, .pint 1, .pint 2]) ∧
    setItem noColor marginSchema {} "margin"
        (.ptuple [.pint 1, .pint 2, .pint 3, .pint 4, .pint 5]) =
      ({}, some .valueError) :=
  ⟨(C8_directional_expansion noColor {} 1 2 3 4 5 (by decide) (by decide)
      (by decide) (by decide)).2.1,
   (C8_directional_expansion noColor {} 1 2 3 4 5 (by decide) (by decide)
      (by decide) (by decide)).2.2.2.2⟩

/-- C6 counterexample: writing the tuple (1, 2, "bogus") to margin raises,
but the failed write leaves margin_top and margin_right already mutated
(stored and applied), refuting the no-partial-mutation claim for
directional writes. -/
theorem C6_counterexample :
    (setItem noColor marginSchema {} "margin"
        (.ptuple [.pint 1, .pint 2, .pstr "bogus"])).2 = some .valueError ∧
    (setItem noColor marginSchema {} "margin"
        (.ptuple [.pint 1, .pint 2, .pstr "bogus"])).1.stored =
      [("margin_top", .pint 1), ("margin_right", .pint 2)] ∧
    (setItem noColor marginSchema {} "margin"
        (.ptuple [.pint 1, .pint 2, .pstr "bogus"])).1.applyLog =
      [("margin_top", .pint 1), ("margin_right", .pint 2)] := by
  refine ⟨by decide, by decide, by decide⟩

/-- C6 (amended): every rejected write raises synchronously; a rejected
write of a single validated property leaves the state untouched; but a
rejected directional tuple write keeps the sub-property assignments made
before the failing element: writing (a, b, bad) to margin stores and
applies margin_top := a and margin_right := b, then raises, leaving
margin_bottom and margin_left untouched. -/
theorem C6_rejected_write_amended (cf : PyVal → Option PyVal) (s : StyleState)
    (a b : Int) (z : String) (hz : pyIntParse z = none)
    (h1 : lookupStored s "margin_top" = none)
    (h2 : lookupStored s "margin_right" = none) :
    (∀ (p : validated_property) (s0 : StyleState) (v : PyVal),
        ((p.set cf s0 v).2).isSome = true → (p.set cf s0 v).1 = s0) ∧
    setItem cf marginSchema s "margin" (.ptuple [.pint a, .pint b, .pstr z]) =
      (afterW (afterW s "margin_top" (.pint a)) "margin_right" (.pint b),
        some .valueError) ∧
    lookupStored (setItem cf marginSchema s "margin"
        (.ptuple [.pint a, .pint b, .pstr z])).1 "margin_bottom" =
      lookupStored s "margin_bottom" ∧
    lookupStored (setItem cf marginSchema s "margin"
        (.ptuple [.pint a, .pint b, .pstr z])).1 "margin_left" =
      lookupStored s "margin_left" := by
  have atomic : ∀ (p : validated_property) (s0 : StyleState) (v : PyVal),
      ((p.set cf s0 v).2).isSome = true → (p.set cf s0 v).1 = s0 := by
    intro p s0 v h
    unfold validated_property.set at h ⊢
    by_cases hv : v = .pnone
    · simp [hv]
    · simp only [if_neg hv] at h ⊢
      cases hval : p.validate cf v with
      | error e => simp [hval]
      | ok nv =>
        simp only [hval] at h ⊢
        split at h <;> simp_all
  have echain : setItem cf marginSchema s "margin"
      (.ptuple [.pint a, .pint b, .pstr z]) =
      (afterW (afterW s "margin_top" (.pint a)) "margin_right" (.pint b),
        some .valueError) := by
    rw [setItem_margin_of_triple]
    have e1 := set_int_unset cf marginTop s a "margin_top" rfl rfl h1
    have l2 : lookupStored (afterW s "margin_top" (.pint a)) "margin_right" =
        none := by
      rw [lookupStored_afterW_ne _ _ _ _ (by decide)]
      exact h2
    have e2 := set_int_unset cf marginRight (afterW s "margin_top" (.pint a))
      b "margin_right" rfl rfl l2
    have e3 := set_str_int_fails cf marginBottom
      (afterW (afterW s "margin_top" (.pint a)) "margin_right" (.pint b)) z
      rfl hz
    simp only [write4, e1, e2, e3]
  refine ⟨atomic, echain, ?_, ?_⟩
  · rw [echain]
    show lookupStored (afterW (afterW s "margin_top" (.pint a))
      "margin_right" (.pint b)) "margin_bottom" = lookupStored s "margin_bottom"
    rw [lookupStored_afterW_ne _ _ _ _ (by decide),
      lookupStored_afterW_ne _ _ _ _ (by decide)]
  · rw [echain]
    show lookupStored (afterW (afterW s "margin_top" (.pint a))
      "margin_right" (.pint b)) "margin_left" = lookupStored s "margin_left"
    rw [lookupStored_afterW_ne _ _ _ _ (by decide),
      lookupStored_afterW_ne _ _ _ _ (by decide)]

/-- Witness for C6 (amended) at the concrete failing write. -/
theorem C6_rejected_write_amended_witness :
    setItem noColor marginSchema {} "margin"
        (.ptuple [.pint 1, .pint 2, .pstr "bad"]) =
      (afterW (afterW {} "margin_top" (.pint 1)) "margin_right" (.pint 2),
        some .valueError) ∧
    lookupStored (setItem noColor marginSchema {} "margin"
        (.ptuple [.pint 1, .pint 2, .pstr "bad"])).1 "margin_bottom" = none :=
  ⟨(C6_rejected_write_amended noColor {} 1 2 "bad" (by decide) (by decide)
      (by decide)).2.1,
   ((C6_rejected_write_amended noColor {} 1 2 "bad" (by decide) (by decide)
      (by decide)).2.2.1).trans (by decide)⟩

/-- C4: Choices.validate tries the branches in the fixed order string,
integer, number, color, constants, first success winning, raising
ValueError when every applicable branch fails.  With constants A, B and
string acceptance, " x " normalizes to "x", A validates to itself, and 10
fails; a numeric string is coerced by the integer branch exactly when the
string branch is disabled (order); an unparsable string falls through the
integer branch to the constants (fallthrough). -/
theorem C4_validate_order (cf : PyVal → Option PyVal) (A B : String)
    (hA : pyStrip A = A) :
    Choices.validate cf { constants := [.pstr A, .pstr B], string := true }
        (.pstr " x ") = .ok (.pstr "x") ∧
    Choices.validate cf { constants := [.pstr A, .pstr B], string := true }
        (.pstr A) = .ok (.pstr A) ∧
    Choices.validate cf { constants := [.pstr A, .pstr B], string := true }
        (.pint 10) = .error .valueError ∧
    Choices.validate cf { constants := [], integer := true }
        (.pstr "12") = .ok (.pint 12) ∧
    Choices.validate cf { constants := [], string := true, integer := true }
        (.pstr "12") = .ok (.pstr "12") ∧
    Choices.validate cf { constants := [.pstr "abc"], integer := true }
        (.pstr "abc") = .ok (.pstr "abc") := by
  refine ⟨rfl, ?_, rfl, rfl, rfl, rfl⟩
  simp [Choices.validate, hA]

/-- Witness for C4 at A = "a", B = "b" and the trivial color parser. -/
theorem C4_validate_order_witness :
    Choices.validate noColor { constants := [.pstr "a", .pstr "b"], string := true }
        (.pstr " x ") = .ok (.pstr "x") ∧
    Choices.validate noColor { constants := [.pstr "a", .pstr "b"], string := true }
        (.pstr "a") = .ok (.pstr "a") ∧
    Choices.validate noColor { constants := [.pstr "a", .pstr "b"], string := true }
        (.pint 10) = .error .valueError :=
  let h := C4_validate_order noColor "a" "b" (by decide)
  ⟨h.1, h.2.1, h.2.2.1⟩

/-- C2 counterexample: deleting a property whose value is not stored is a
complete no-op; in particular no apply call is issued, refuting the claim
that delete always invokes owner.apply(name, initialValue). -/
theorem C2_counterexample :
    validated_property.delete intProp {} = {} ∧
    (validated_property.delete intProp {}).applyLog = [] := by
  exact ⟨rfl, rfl⟩

/-- C2 (amended): delete removes the stored value if present and invokes
owner.apply(name, initialValue) exactly when a value was stored (not
always); afterwards reading the property returns the initial value. -/
theorem C2_delete_amended (p : validated_property) (s : StyleState) :
    lookupStored (p.delete s) p.name = none ∧
    p.get (p.delete s) = p.initial ∧
    (p.is_set_on s = true →
      (p.delete s).applyLog = s.applyLog ++ [(p.name, p.initial)]) ∧
    (p.is_set_on s = false → p.delete s = s) := by
  by_cases h : (lookupStored s p.name).isSome
  · have hdel : p.delete s =
        { stored := s.stored.filter (fun kv => kv.1 ≠ p.name),
          applyLog := s.applyLog ++ [(p.name, p.initial)] } := by
      unfold validated_property.delete
      rw [if_pos h]
    have hlook : lookupStored (p.delete s) p.name = none := by
      rw [hdel]
      show ((s.stored.filter (fun kv => kv.1 ≠ p.name)).find?
        (fun kv => kv.1 == p.name)).map (fun kv => kv.2) = none
      rw [lookup_filter_ne]
      rfl
    refine ⟨hlook, ?_, fun _ => by rw [hdel], fun hf => ?_⟩
    · unfold validated_property.get
      rw [hlook]
      rfl
    · rw [validated_property.is_set_on] at hf
      rw [hf] at h
      exact absurd h (by simp)
  · have hdel : p.delete s = s := by
      unfold validated_property.delete
      rw [if_neg h]
    have hnone : lookupStored s p.name = none :=
      Option.not_isSome_iff_eq_none.mp h
    refine ⟨by rw [hdel, hnone], ?_, fun ht => ?_, fun _ => hdel⟩
    · unfold validated_property.get
      rw [hdel, hnone]
      rfl
    · rw [validated_property.is_set_on, hnone] at ht
      simp at ht

/-- Witness for C2 (amended) on a state where int_prop is stored. -/
theorem C2_delete_amended_witness :
    validated_property.is_set_on intProp intPropSet = true ∧
    (validated_property.delete intProp intPropSet).applyLog =
      [("int_prop", PyVal.pint 0)] ∧
    validated_property.get intProp (validated_property.delete intProp intPropSet) =
      PyVal.pint 0 :=
  ⟨by decide,
   by simpa using (C2_delete_amended intProp intPropSet).2.2.1 (by decide),
   (C2_delete_amended intProp intPropSet).2.1⟩

/-- C5: writing a property twice with values that normalize identically
invokes the apply hook exactly once — the first write (from a state whose
stored value differs in Python equality from the normalized value) stores
the value and issues one apply call, and the second write stores nothing
and issues none. -/
theorem C5_set_idempotent (cf : PyVal → Option PyVal) (p : validated_property)
    (s : StyleState) (v w nv : PyVal)
    (hv : p.validate cf v = .ok nv) (hw : p.validate cf w = .ok nv)
    (hvn : v ≠ .pnone) (hwn : w ≠ .pnone)
    (hdiff : pyEq nv ((lookupStored s p.name).getD .pnone) = false) :
    (p.set cf s v).2 = none ∧
    (p.set cf s v).1.applyLog = s.applyLog ++ [(p.name, nv)] ∧
    p.set cf (p.set cf s v).1 w = ((p.set cf s v).1, none) := by
  have h1 : p.set cf s v =
      ({ stored := setStored s.stored p.name nv,
         applyLog := s.applyLog ++ [(p.name, nv)] }, none) := by
    simp only [validated_property.set, if_neg hvn, hv, hdiff,
      Bool.false_eq_true, if_false]
  refine ⟨by rw [h1], by rw [h1], ?_⟩
  rw [h1]
  simp only [validated_property.set, if_neg hwn, hw,
    lookupStored_set_stored, Option.getD_some, pyEq_refl, if_true]

/-- Witness for C5: writing 5 twice to int_prop from the empty state. -/
theorem C5_set_idempotent_witness :
    (intProp.set noColor {} (.pint 5)).1.applyLog =
      [("int_prop", PyVal.pint 5)] ∧
    intProp.set noColor (intProp.set noColor {} (.pint 5)).1 (.pint 5) =
      ((intProp.set noColor {} (.pint 5)).1, none) :=
  let h := C5_set_idempotent noColor intProp {} (.pint 5) (.pint 5) (.pint 5)
    (by decide) (by decide) (by decide) (by decide) (by decide)
  ⟨h.2.1, h.2.2⟩

/-- One Node's pointer fields (node.py): _parent, _root (None meaning the
node is its own root) and _children (None for a leaf that structurally
cannot have children, a list for a branch). -/
structure NodeData where
  parent : Option Nat := none
  rootp : Option Nat := none
  children : Option (List Nat) := none
  deriving DecidableEq

/-- The mutable heap of nodes: an association list from node identity to
its pointer record. -/
abbrev Forest := List (Nat × NodeData)

/-- Reads a node record (default record for an unknown id, which the
operations never dereference under their preconditions). -/
def fget (f : Forest) (i : Nat) : NodeData :=
  (((f.find? (fun kv => kv.1 == i))).map (fun kv => kv.2)).getD {}

/-- Overwrites a node record in place; a no-op for an unknown id. -/
def fset (f : Forest) (i : Nat) (d : NodeData) : Forest :=
  f.map (fun kv => if kv.1 = i then (i, d) else kv)

/-- The node identities of the forest. -/
def keysOf (f : Forest) : List Nat := f.map (fun kv => kv.1)

/-- Node.root: self._root if self._root else self. -/
def rootOfF (f : Forest) (i : Nat) : Nat := (fget f i).rootp.getD i

/-- Node.children: always a list, empty for a leaf. -/
def childrenOf (f : Forest) (i : Nat) : List Nat :=
  (fget f i).children.getD []

/-- Node._set_root: write the new root pointer, then recurse depth-first
into the children.  The fuel bounds the recursion depth; Python's version
recurses forever (RecursionError) on a cyclic children graph, and the
operations below hand this model enough fuel for every acyclic state. -/
def setRootFuel : Nat → Forest → Nat → Option Nat → Forest
  | 0, f, _, _ => f
  | fuel + 1, f, i, r =>
    let f1 := fset f i { fget f i with rootp := r }
    (childrenOf f1 i).foldl (fun acc c => setRootFuel fuel acc c r) f1

/-- Python list.insert semantics on indices from 0 upward: past-the-end
indices append. -/
def insertPy : Nat → Nat → List Nat → List Nat
  | _, x, [] => [x]
  | 0, x, l => x :: l
  | n + 1, x, a :: l => a :: insertPy n x l

/-- The four structural mutations of Node. -/
inductive NodeOp where
  | add (p c : Nat)
  | insert (p : Nat) (idx : Nat) (c : Nat)
  | remove (p c : Nat)
  | clear (p : Nat)
  deriving DecidableEq

/-- Node.add / Node.insert / Node.remove / Node.clear as state
transformers.  add and insert raise ValueError on a leaf, then append (or
insert at a clamped index), set the child's parent, and propagate
self.root through the child's subtree.  remove raises on a leaf or on a
non-child, removes the first occurrence, clears the child's parent and
propagates None.  clear silently does nothing on a leaf (the source
returns early, its docstring notwithstanding); on a branch it detaches
every child (parent None, root propagation None) and then empties the
children list. -/
def runOp (f : Forest) : NodeOp → Except PyErr Forest
  | .add p c =>
    match (fget f p).children with
    | none => .error .valueError
    | some l =>
      let f1 := fset f p { fget f p with children := some (l ++ [c]) }
      let f2 := fset f1 c { fget f1 c with parent := some p }
      .ok (setRootFuel (f.length + 1) f2 c (some (rootOfF f2 p)))
  | .insert p idx c =>
    match (fget f p).children with
    | none => .error .valueError
    | some l =>
      let f1 := fset f p { fget f p with children := some (insertPy idx c l) }
      let f2 := fset f1 c { fget f1 c with parent := some p }
      .ok (setRootFuel (f.length + 1) f2 c (some (rootOfF f2 p)))
  | .remove p c =>
    match (fget f p).children with
    | none => .error .valueError
    | some l =>
      if c ∈ l then
        let f1 := fset f p { fget f p with children := some (l.erase c) }
        let f2 := fset f1 c { fget f1 c with parent := none }
        .ok (setRootFuel (f.length + 1) f2 c none)
      else .error .valueError
  | .clear p =>
    match (fget f p).children with
    | none => .ok f
    | some l =>
      let f1 := l.foldl (fun g c =>
        let g1 := fset g c { fget g c with parent := none }
        setRootFuel (g.length + 1) g1 c none) f
      .ok (fset f1 p { fget f1 p with children := some [] })

/-- Runs a sequence of structural mutations, stopping at the first
exception. -/
def runOps (f : Forest) : List NodeOp → Except PyErr Forest
  | [] => .ok f
  | op :: rest =>
    match runOp f op with
    | .error e => .error e
    | .ok f1 => runOps f1 rest

/-- Reachability along children edges (the claims' "reachable from r via
children edges"). -/
inductive ReachesF (f : Forest) (i : Nat) : Nat → Prop
  | refl : ReachesF f i i
  | step {j k : Nat} : ReachesF f i j → k ∈ childrenOf f j → ReachesF f i k

/-- A branch node record with the given children and no parent. -/
def brN (l : List Nat) : NodeData :=
  { parent := none, rootp := none, children := some l }

/-- A one-leaf forest. -/
def leafF : Forest := [(0, {})]

/-- A three-branch starting forest. -/
def F3 : Forest := [(0, brN []), (1, brN []), (2, brN [])]

/-- The forest reached from F3 by add 0 1; add 1 2; remove 0 1: node 1 is
again a root holding child 2, but node 2's root pointer was reset to None
by the remove's _set_root pass. -/
def F3after : Forest :=
  [(0, { parent := none, rootp := none, children := some [] }),
   (1, { parent := none, rootp := none, children := some [2] }),
   (2, { parent := some 1, rootp := none, children := some [] })]

/-- The forest reached from F3 by add 0 2; add 1 2: node 2 is listed as a
child of both 0 and 1 while its parent pointer names only 1. -/
def F3double : Forest :=
  [(0, { parent := none, rootp := none, children := some [2] }),
   (1, { parent := none, rootp := none, children := some [2] }),
   (2, { parent := some 1, rootp := some 1, children := some [] })]

/-- C3 counterexample: clear on a leaf node does not raise
CannotHaveChildren; the source returns silently (its docstring
notwithstanding), leaving the forest unchanged. -/
theorem C3_counterexample :
    (fget leafF 0).children = none ∧
    runOp leafF (.clear 0) = .ok leafF := by
  exact ⟨rfl, by decide⟩

/-- C3 (amended): on a node constructed without a children sequence (a
leaf), add, insert and remove raise the CannotHaveChildren ValueError, but
clear silently succeeds and changes nothing. -/
theorem C3_leaf_amended (f : Forest) (i c idx : Nat)
    (h : (fget f i).children = none) :
    runOp f (.add i c) = .error .valueError ∧
    runOp f (.insert i idx c) = .error .valueError ∧
    runOp f (.remove i c) = .error .valueError ∧
    runOp f (.clear i) = .ok f := by
  refine ⟨?_, ?_, ?_, ?_⟩ <;> simp only [runOp, h]

/-- Witness for C3 (amended) at the concrete one-leaf forest. -/
theorem C3_leaf_amended_witness :
    runOp leafF (.add 0 1) = .error .valueError ∧
    runOp leafF (.clear 0) = .ok leafF :=
  ⟨(C3_leaf_amended leafF 0 1 0 (by decide)).1,
   (C3_leaf_amended leafF 0 1 0 (by decide)).2.2.2⟩

/-- C1 counterexample: after building the chain 0 -> 1 -> 2 and removing 1
from 0, node 1 is a root whose child 2 is reachable via children edges,
yet 2's Node.root is 2 itself, not 1 — remove's _set_root pass resets
every descendant of the removed child, not just the child. -/
theorem C1_counterexample :
    runOps F3 [.add 0 1, .add 1 2, .remove 0 1] = .ok F3after ∧
    (fget F3after 1).parent = none ∧
    ReachesF F3after 1 2 ∧
    rootOfF F3after 2 ≠ 1 := by
  refine ⟨by decide, by decide, ?_, by decide⟩
  exact ReachesF.step ReachesF.refl (by decide)

/-- C9 counterexample: adding node 2 — which already has parent 0 — to
node 1 leaves 2 listed among 0's children while 2's parent pointer names
1, so containment does not match the parent pointer and the node sits in
two children sequences at once. -/
theorem C9_counterexample :
    runOps F3 [.add 0 2, .add 1 2] = .ok F3double ∧
    2 ∈ childrenOf F3double 0 ∧
    2 ∈ childrenOf F3double 1 ∧
    (fget F3double 2).parent = some 1 := by
  refine ⟨by decide, by decide, by decide, by decide⟩

theorem fget_cons_self (kv : Nat × NodeData) (rest : Forest) (i : Nat)
    (h : kv.1 = i) : fget (kv :: rest) i = kv.2 := by
  unfold fget
  rw [List.find?_cons_of_pos _ (by simp [h])]
  rfl

theorem fget_cons_ne (kv : Nat × NodeData) (rest : Forest) (i : Nat)
    (h : kv.1 ≠ i) : fget (kv :: rest) i = fget rest i := by
  unfold fget
  rw [List.find?_cons_of_neg _ (by simpa using h)]

theorem fset_cons (kv : Nat × NodeData) (rest : Forest) (i : Nat)
    (d : NodeData) :
    fset (kv :: rest) i d = (if kv.1 = i then (i, d) else kv) :: fset rest i d :=
  rfl

theorem fset_not_mem (f : Forest) (i : Nat) (d : NodeData)
    (h : i ∉ keysOf f) : fset f i d = f := by
  induction f with
  | nil => rfl
  | cons kv rest ih =>
    simp only [keysOf, List.map_cons, List.mem_cons, not_or] at h
    rw [fset_cons, if_neg (fun he => h.1 he.symm)]
    rw [ih h.2]

theorem fget_fset_self (f : Forest) (i : Nat) (d : NodeData)
    (h : i ∈ keysOf f) : fget (fset f i d) i = d := by
  induction f with
  | nil => simp [keysOf] at h
  | cons kv rest ih =>
    rw [fset_cons]
    by_cases hk : kv.1 = i
    · rw [if_pos hk, fget_cons_self _ _ _ rfl]
    · rw [if_neg hk, fget_cons_ne _ _ _ hk]
      apply ih
      simp only [keysOf, List.map_cons, List.mem_cons] at h
      rcases h with h | h
      · exact absurd h.symm hk
      · exact h

theorem fget_fset_ne (f : Forest) (i j : Nat) (d : NodeData) (h : j ≠ i) :
    fget (fset f i d) j = fget f j := by
  induction f with
  | nil => rfl
  | cons kv rest ih =>
    rw [fset_cons]
    by_cases hk : kv.1 = i
    · rw [if_pos hk]
      rw [fget_cons_ne (i, d) _ _ (fun he => h he.symm)]
      rw [fget_cons_ne _ _ _ (by rw [hk]; exact fun he => h he.symm)]
      exact ih
    · rw [if_neg hk]
      by_cases hj : kv.1 = j
      · rw [fget_cons_self _ _ _ hj, fget_cons_self _ _ _ hj]
      · rw [fget_cons_ne _ _ _ hj, fget_cons_ne _ _ _ hj]
        exact ih

theorem keysOf_fset (f : Forest) (i : Nat) (d : NodeData) :
    keysOf (fset f i d) = keysOf f := by
  induction f with
  | nil => rfl
  | cons kv rest ih =>
    rw [fset_cons]
    simp only [keysOf, List.map_cons]
    by_cases hk : kv.1 = i
    · rw [if_pos hk, hk]
      exact congrArg _ ih
    · rw [if_neg hk]
      exact congrArg _ ih

/-- The parent and children fields of one node, the part of the state that
_set_root never touches. -/
def strOf (f : Forest) (j : Nat) : Option Nat × Option (List Nat) :=
  ((fget f j).parent, (fget f j).children)

theorem strOf_fset_rootp (f : Forest) (i : Nat) (r : Option Nat) (j : Nat) :
    strOf (fset f i { fget f i with rootp := r }) j = strOf f j := by
  by_cases hij : j = i
  · subst hij
    by_cases hi : j ∈ keysOf f
    · unfold strOf
      rw [fget_fset_self f j _ hi]
    · rw [fset_not_mem f j _ hi]
  · unfold strOf
    rw [fget_fset_ne f i j _ hij]

theorem setRootFuel_struct : ∀ (fuel : Nat) (f : Forest) (i : Nat)
    (r : Option Nat) (j : Nat),
    strOf (setRootFuel fuel f i r) j = strOf f j ∧
    keysOf (setRootFuel fuel f i r) = keysOf f := by
  intro fuel
  induction fuel with
  | zero => intro f i r j; exact ⟨rfl, rfl⟩
  | succ fuel ih =>
    intro f i r j
    have aux : ∀ (cs : List Nat) (g : Forest),
        strOf (cs.foldl (fun acc c => setRootFuel fuel acc c r) g) j =
          strOf g j ∧
        keysOf (cs.foldl (fun acc c => setRootFuel fuel acc c r) g) =
          keysOf g := by
      intro cs
      induction cs with
      | nil => intro g; exact ⟨rfl, rfl⟩
      | cons c cs ihc =>
        intro g
        rw [List.foldl_cons]
        exact ⟨(ihc _).1.trans (ih g c r j).1,
          (ihc _).2.trans (ih g c r j).2⟩
    simp only [setRootFuel]
    exact ⟨(aux _ _).1.trans (strOf_fset_rootp f i r j),
      (aux _ _).2.trans (keysOf_fset f i _)⟩

theorem childrenOf_eq_of_strOf (f g : Forest) (j : Nat)
    (h : strOf f j = strOf g j) : childrenOf f j = childrenOf g j := by
  unfold childrenOf
  unfold strOf at h
  rw [(Prod.mk.injEq _ _ _ _).mp h |>.2]

theorem parent_eq_of_strOf (f g : Forest) (j : Nat)
    (h : strOf f j = strOf g j) : (fget f j).parent = (fget g j).parent := by
  unfold strOf at h
  exact ((Prod.mk.injEq _ _ _ _).mp h).1

theorem fget_not_mem (f : Forest) (i : Nat) (h : i ∉ keysOf f) :
    fget f i = {} := by
  unfold fget
  rw [List.find?_eq_none.mpr]
  · rfl
  · intro x hx
    simp only [beq_iff_eq]
    intro he
    exact h (he ▸ List.mem_map_of_mem _ hx)

theorem mem_keys_of_children (f : Forest) (p : Nat) (l : List Nat)
    (h : (fget f p).children = some l) : p ∈ keysOf f := by
  by_contra hn
  rw [fget_not_mem f p hn] at h
  cases h

/-- The shared shape of add, insert and remove after the leaf check: update
the parent's children list, set the child's parent pointer, and run
_set_root from the child. -/
def opCore (f : Forest) (p c : Nat) (nl : List Nat) (dc : Option Nat)
    (fuel : Nat) (root : Option Nat) : Forest :=
  setRootFuel fuel
    (fset (fset f p { fget f p with children := some nl }) c
      { fget (fset f p { fget f p with children := some nl }) c with
        parent := dc }) c root

theorem runOp_add_eq (f : Forest) (p c : Nat) (l : List Nat)
    (hbr : (fget f p).children = some l) (hp : p ∈ keysOf f) (hcp : c ≠ p) :
    runOp f (.add p c) =
      .ok (opCore f p c (l ++ [c]) (some p) (f.length + 1)
        (some (rootOfF f p))) := by
  have hroot : rootOfF
      (fset (fset f p { fget f p with children := some (l ++ [c]) }) c
        { fget (fset f p { fget f p with children := some (l ++ [c]) }) c with
          parent := some p }) p = rootOfF f p := by
    unfold rootOfF
    rw [fget_fset_ne _ c p _ (Ne.symm hcp), fget_fset_self f p _ hp]
  simp only [runOp, hbr]
  unfold opCore
  rw [hroot]

theorem runOp_insert_eq (f : Forest) (p idx c : Nat) (l : List Nat)
    (hbr : (fget f p).children = some l) (hp : p ∈ keysOf f) (hcp : c ≠ p) :
    runOp f (.insert p idx c) =
      .ok (opCore f p c (insertPy idx c l) (some p) (f.length + 1)
        (some (rootOfF f p))) := by
  have hroot : rootOfF
      (fset (fset f p { fget f p with children := some (insertPy idx c l) }) c
        { fget (fset f p
            { fget f p with children := some (insertPy idx c l) }) c with
          parent := some p }) p = rootOfF f p := by
    unfold rootOfF
    rw [fget_fset_ne _ c p _ (Ne.symm hcp), fget_fset_self f p _ hp]
  simp only [runOp, hbr]
  unfold opCore
  rw [hroot]

theorem runOp_remove_eq (f : Forest) (p c : Nat) (l : List Nat)
    (hbr : (fget f p).children = some l) (hcl : c ∈ l) :
    runOp f (.remove p c) =
      .ok (opCore f p c (l.erase c) none (f.length + 1) none) := by
  simp only [runOp, hbr, if_pos hcl]
  rfl

theorem opCore_char (f : Forest) (p c : Nat) (nl : List Nat)
    (dc : Option Nat) (fuel : Nat) (root : Option Nat)
    (hp : p ∈ keysOf f) (hck : c ∈ keysOf f) (hcp : c ≠ p) :
    keysOf (opCore f p c nl dc fuel root) = keysOf f ∧
    (∀ q, childrenOf (opCore f p c nl dc fuel root) q =
      if q = p then nl else childrenOf f q) ∧
    (∀ x, (fget (opCore f p c nl dc fuel root) x).parent =
      if x = c then dc else (fget f x).parent) := by
  have hck1 : c ∈ keysOf (fset f p { fget f p with children := some nl }) := by
    rw [keysOf_fset]
    exact hck
  unfold opCore
  set f2 := fset (fset f p { fget f p with children := some nl }) c
    { fget (fset f p { fget f p with children := some nl }) c with
      parent := dc } with hf2
  refine ⟨?_, ?_, ?_⟩
  · rw [(setRootFuel_struct fuel f2 c root 0).2, hf2, keysOf_fset, keysOf_fset]
  · intro q
    rw [childrenOf_eq_of_strOf _ _ q (setRootFuel_struct fuel f2 c root q).1]
    by_cases hqc : q = c
    · subst hqc
      unfold childrenOf
      rw [hf2, fget_fset_self _ q _ hck1]
      show (fget (fset f p { fget f p with children := some nl }) q).children.getD [] = _
      rw [fget_fset_ne f p q _ hcp, if_neg hcp]
    · unfold childrenOf
      rw [hf2, fget_fset_ne _ c q _ hqc]
      by_cases hqp : q = p
      · subst hqp
        rw [fget_fset_self f q _ hp, if_pos rfl]
        rfl
      · rw [fget_fset_ne f p q _ hqp, if_neg hqp]
  · intro x
    rw [parent_eq_of_strOf _ _ x (setRootFuel_struct fuel f2 c root x).1]
    by_cases hxc : x = c
    · subst hxc
      rw [hf2, fget_fset_self _ x _ hck1, if_pos rfl]
    · rw [hf2, fget_fset_ne _ c x _ hxc]
      by_cases hxp : x = p
      · subst hxp
        rw [fget_fset_self f x _ hp, if_neg hxc]
      · rw [fget_fset_ne f p x _ hxp, if_neg hxc]

/-- The pass over the children performed by Node.clear before it empties
its own list: detach each child and reset its subtree's root pointers. -/
def clearFold (g : Forest) (cs : List Nat) : Forest :=
  cs.foldl (fun g c =>
    setRootFuel (g.length + 1) (fset g c { fget g c with parent := none })
      c none) g

theorem runOp_clear_eq (f : Forest) (p : Nat) (l : List Nat)
    (hbr : (fget f p).children = some l) :
    runOp f (.clear p) =
      .ok (fset (clearFold f l) p
        { fget (clearFold f l) p with children := some [] }) := by
  simp only [runOp, hbr]
  rfl

theorem childrenOf_fset_parent (g : Forest) (c : Nat) (q : Nat) :
    childrenOf (fset g c { fget g c with parent := none }) q =
      childrenOf g q := by
  by_cases hqc : q = c
  · subst hqc
    by_cases hc : q ∈ keysOf g
    · unfold childrenOf
      rw [fget_fset_self g q _ hc]
    · rw [fset_not_mem g q _ hc]
  · unfold childrenOf
    rw [fget_fset_ne g c q _ hqc]

theorem clearFold_char : ∀ (cs : List Nat) (g : Forest),
    (∀ x ∈ cs, x ∈ keysOf g) →
    keysOf (clearFold g cs) = keysOf g ∧
    (∀ q, childrenOf (clearFold g cs) q = childrenOf g q) ∧
    (∀ x, (fget (clearFold g cs) x).parent =
      if x ∈ cs then none else (fget g x).parent) := by
  intro cs
  induction cs with
  | nil =>
    intro g _
    refine ⟨rfl, fun q => rfl, fun x => ?_⟩
    rw [if_neg (List.not_mem_nil x)]
    rfl
  | cons c cs ih =>
    intro g hmem
    have hc : c ∈ keysOf g := hmem c (List.mem_cons_self c cs)
    have hstep : clearFold g (c :: cs) =
        clearFold (setRootFuel (g.length + 1)
          (fset g c { fget g c with parent := none }) c none) cs := rfl
    set g2 := setRootFuel (g.length + 1)
      (fset g c { fget g c with parent := none }) c none with hg2
    have hkeys2 : keysOf g2 = keysOf g := by
      rw [hg2, (setRootFuel_struct _ _ c none 0).2, keysOf_fset]
    have hkids2 : ∀ q, childrenOf g2 q = childrenOf g q := by
      intro q
      rw [hg2]
      rw [childrenOf_eq_of_strOf _ _ q (setRootFuel_struct _ _ c none q).1]
      exact childrenOf_fset_parent g c q
    have hpar2 : ∀ x, (fget g2 x).parent =
        if x = c then none else (fget g x).parent := by
      intro x
      rw [hg2]
      rw [parent_eq_of_strOf _ _ x (setRootFuel_struct _ _ c none x).1]
      by_cases hxc : x = c
      · subst hxc
        rw [fget_fset_self g x _ hc, if_pos rfl]
      · rw [fget_fset_ne g c x _ hxc, if_neg hxc]
    have hmem2 : ∀ x ∈ cs, x ∈ keysOf g2 := by
      intro x hx
      rw [hkeys2]
      exact hmem x (List.mem_cons_of_mem c hx)
    obtain ⟨k3, c3, p3⟩ := ih g2 hmem2
    refine ⟨?_, ?_, ?_⟩
    · rw [hstep, k3, hkeys2]
    · intro q
      rw [hstep, c3 q, hkids2 q]
    · intro x
      rw [hstep, p3 x, hpar2 x]
      by_cases hxcs : x ∈ cs
      · rw [if_pos hxcs, if_pos (List.mem_cons_of_mem c hxcs)]
      · rw [if_neg hxcs]
        by_cases hxc : x = c
        · rw [if_pos hxc, if_pos (by rw [hxc]; exact List.mem_cons_self c cs)]
        · rw [if_neg hxc, if_neg (by simp [hxc, hxcs])]

theorem insertPy_mem (a c : Nat) : ∀ (idx : Nat) (l : List Nat),
    (a ∈ insertPy idx c l ↔ a = c ∨ a ∈ l) := by
  intro idx
  induction idx with
  | zero =>
    intro l
    cases l <;> simp [insertPy]
  | succ n ih =>
    intro l
    cases l with
    | nil => simp [insertPy]
    | cons b l =>
      simp only [insertPy, List.mem_cons, ih l]
      tauto

theorem insertPy_count (a c : Nat) : ∀ (idx : Nat) (l : List Nat),
    (insertPy idx c l).count a =
      l.count a + (if c = a then 1 else 0) := by
  intro idx
  induction idx with
  | zero =>
    intro l
    cases l with
    | nil =>
      simp only [insertPy, List.count_cons, List.count_nil, beq_iff_eq]
    | cons b l =>
      simp only [insertPy, List.count_cons, beq_iff_eq]
  | succ n ih =>
    intro l
    cases l with
    | nil =>
      simp only [insertPy, List.count_cons, List.count_nil, beq_iff_eq]
    | cons b l =>
      simp only [insertPy, List.count_cons, ih l, beq_iff_eq]
      omega

/-- Parent-pointer consistency: a node is listed among p's children exactly
when its parent pointer is p, it then exists in the forest, no children
list holds a node twice, and no node is its own parent. -/
def PCinv (f : Forest) : Prop :=
  (∀ p c, c ∈ childrenOf f p → (fget f c).parent = some p ∧ c ∈ keysOf f) ∧
  (∀ c p, (fget f c).parent = some p → c ∈ childrenOf f p) ∧
  (∀ p c, (childrenOf f p).count c ≤ 1) ∧
  (∀ c, (fget f c).parent ≠ some c)

/-- The well-formed-usage precondition of one structural mutation: a node
being added or inserted is detached (no parent), exists in the forest, and
its subtree does not contain the target (in Python the latter two are
automatic for real, acyclically built node objects); remove and clear have
no precondition. -/
def GoodOp (f : Forest) : NodeOp → Prop
  | .add p c => (fget f c).parent = none ∧ c ∈ keysOf f ∧ ¬ ReachesF f c p
  | .insert p _ c => (fget f c).parent = none ∧ c ∈ keysOf f ∧ ¬ ReachesF f c p
  | .remove _ _ => True
  | .clear _ => True

/-- A run of structural mutations in which every step satisfies its
precondition and succeeds. -/
inductive GoodRun : Forest → List NodeOp → Forest → Prop
  | nil (f : Forest) : GoodRun f [] f
  | cons {f f1 f2 : Forest} {op : NodeOp} {ops : List NodeOp} :
      GoodOp f op → runOp f op = .ok f1 → GoodRun f1 ops f2 →
      GoodRun f (op :: ops) f2

theorem PC_addins (f : Forest) (p c : Nat) (l nl : List Nat)
    (hbr : (fget f p).children = some l)
    (hmemnl : ∀ a, a ∈ nl ↔ a = c ∨ a ∈ l)
    (hcountnl : ∀ a, nl.count a = l.count a + (if c = a then 1 else 0))
    (hparc : (fget f c).parent = none) (hck : c ∈ keysOf f) (hcp : c ≠ p)
    (hPC : PCinv f) (fuel : Nat) (root : Option Nat) :
    PCinv (opCore f p c nl (some p) fuel root) := by
  obtain ⟨pc1, pc2, pc3, pc4⟩ := hPC
  have hp := mem_keys_of_children f p l hbr
  have hlp : childrenOf f p = l := by
    unfold childrenOf
    rw [hbr]
    rfl
  obtain ⟨hk, hkid, hpar⟩ := opCore_char f p c nl (some p) fuel root hp hck hcp
  have hcnot : ∀ q, c ∉ childrenOf f q := by
    intro q hq
    have h0 := (pc1 q c hq).1
    rw [hparc] at h0
    cases h0
  have hcl : c ∉ l := fun h => hcnot p (by rw [hlp]; exact h)
  refine ⟨?_, ?_, ?_, ?_⟩
  · intro q x hx
    rw [hkid q] at hx
    by_cases hqp : q = p
    · subst hqp
      rw [if_pos rfl] at hx
      rcases (hmemnl x).mp hx with hxc | hxl
      · subst hxc
        rw [hpar x, if_pos rfl]
        exact ⟨rfl, by rw [hk]; exact hck⟩
      · have hxc : x ≠ c := fun he => hcl (he ▸ hxl)
        have hx1 := pc1 q x (by rw [hlp]; exact hxl)
        rw [hpar x, if_neg hxc]
        exact ⟨hx1.1, by rw [hk]; exact hx1.2⟩
    · rw [if_neg hqp] at hx
      have hxc : x ≠ c := fun he => hcnot q (he ▸ hx)
      have hx1 := pc1 q x hx
      rw [hpar x, if_neg hxc]
      exact ⟨hx1.1, by rw [hk]; exact hx1.2⟩
  · intro x q hxq
    rw [hpar x] at hxq
    by_cases hxc : x = c
    · rw [if_pos hxc] at hxq
      injection hxq with hpq
      subst hpq
      rw [hkid p, if_pos rfl]
      exact (hmemnl x).mpr (Or.inl hxc)
    · rw [if_neg hxc] at hxq
      have h0 := pc2 x q hxq
      rw [hkid q]
      by_cases hqp : q = p
      · subst hqp
        rw [if_pos rfl]
        exact (hmemnl x).mpr (Or.inr (by rw [← hlp]; exact h0))
      · rw [if_neg hqp]
        exact h0
  · intro q x
    rw [hkid q]
    by_cases hqp : q = p
    · subst hqp
      rw [if_pos rfl, hcountnl x]
      by_cases hxc : c = x
      · subst hxc
        rw [if_pos rfl]
        have h0 : l.count c = 0 := List.count_eq_zero.mpr hcl
        omega
      · rw [if_neg hxc]
        have h0 := pc3 q x
        rw [hlp] at h0
        omega
    · rw [if_neg hqp]
      exact pc3 q x
  · intro x
    rw [hpar x]
    by_cases hxc : x = c
    · rw [if_pos hxc]
      intro h0
      injection h0 with h1
      exact hcp (by rw [hxc] at h1; exact h1.symm)
    · rw [if_neg hxc]
      exact pc4 x

theorem PC_remove (f : Forest) (p c : Nat) (l : List Nat)
    (hbr : (fget f p).children = some l) (hcl : c ∈ l)
    (hPC : PCinv f) (fuel : Nat) :
    PCinv (opCore f p c (l.erase c) none fuel none) := by
  obtain ⟨pc1, pc2, pc3, pc4⟩ := hPC
  have hp := mem_keys_of_children f p l hbr
  have hlp : childrenOf f p = l := by
    unfold childrenOf
    rw [hbr]
    rfl
  have hparc : (fget f c).parent = some p := (pc1 p c (by rw [hlp]; exact hcl)).1
  have hck : c ∈ keysOf f := (pc1 p c (by rw [hlp]; exact hcl)).2
  have hcp : c ≠ p := fun he => pc4 c (by rw [hparc, he])
  obtain ⟨hk, hkid, hpar⟩ := opCore_char f p c (l.erase c) none fuel none hp hck hcp
  have hcount1 : l.count c ≤ 1 := by
    have h0 := pc3 p c
    rw [hlp] at h0
    exact h0
  have hnotin : c ∉ l.erase c := by
    intro hmem
    have h1 : 0 < (l.erase c).count c := List.count_pos_iff.mpr hmem
    rw [List.count_erase_self] at h1
    omega
  refine ⟨?_, ?_, ?_, ?_⟩
  · intro q x hx
    rw [hkid q] at hx
    by_cases hqp : q = p
    · subst hqp
      rw [if_pos rfl] at hx
      have hxl : x ∈ l := List.mem_of_mem_erase hx
      have hxc : x ≠ c := fun he => hnotin (he ▸ hx)
      have hx1 := pc1 q x (by rw [hlp]; exact hxl)
      rw [hpar x, if_neg hxc]
      exact ⟨hx1.1, by rw [hk]; exact hx1.2⟩
    · rw [if_neg hqp] at hx
      have hx1 := pc1 q x hx
      have hxc : x ≠ c := by
        intro he
        subst he
        rw [hx1.1] at hparc
        injection hparc with h2
        exact hqp h2
      rw [hpar x, if_neg hxc]
      exact ⟨hx1.1, by rw [hk]; exact hx1.2⟩
  · intro x q hxq
    rw [hpar x] at hxq
    by_cases hxc : x = c
    · rw [if_pos hxc] at hxq
      cases hxq
    · rw [if_neg hxc] at hxq
      have h0 := pc2 x q hxq
      rw [hkid q]
      by_cases hqp : q = p
      · subst hqp
        rw [if_pos rfl]
        rw [hlp] at h0
        exact (List.mem_erase_of_ne hxc).mpr h0
      · rw [if_neg hqp]
        exact h0
  · intro q x
    rw [hkid q]
    by_cases hqp : q = p
    · subst hqp
      rw [if_pos rfl]
      have h0 := pc3 q x
      rw [hlp] at h0
      calc (l.erase c).count x ≤ l.count x := (List.erase_sublist c l).count_le x
        _ ≤ 1 := h0
    · rw [if_neg hqp]
      exact pc3 q x
  · intro x
    rw [hpar x]
    by_cases hxc : x = c
    · rw [if_pos hxc]
      intro h0
      cases h0
    · rw [if_neg hxc]
      exact pc4 x

theorem PC_clear (f : Forest) (p : Nat) (l : List Nat)
    (hbr : (fget f p).children = some l) (hPC : PCinv f) :
    PCinv (fset (clearFold f l) p
      { fget (clearFold f l) p with children := some [] }) := by
  obtain ⟨pc1, pc2, pc3, pc4⟩ := hPC
  have hp := mem_keys_of_children f p l hbr
  have hlp : childrenOf f p = l := by
    unfold childrenOf
    rw [hbr]
    rfl
  have hmeml : ∀ x ∈ l, x ∈ keysOf f :=
    fun x hx => (pc1 p x (by rw [hlp]; exact hx)).2
  obtain ⟨ck, ckid, cpar⟩ := clearFold_char l f hmeml
  have hpK : p ∈ keysOf (clearFold f l) := by
    rw [ck]
    exact hp
  have hpl : p ∉ l := by
    intro hmem
    exact pc4 p (pc1 p p (by rw [hlp]; exact hmem)).1
  have hkF : keysOf (fset (clearFold f l) p
      { fget (clearFold f l) p with children := some [] }) = keysOf f := by
    rw [keysOf_fset, ck]
  have hkidF : ∀ q, childrenOf (fset (clearFold f l) p
      { fget (clearFold f l) p with children := some [] }) q =
      if q = p then [] else childrenOf f q := by
    intro q
    by_cases hqp : q = p
    · subst hqp
      unfold childrenOf
      rw [fget_fset_self _ q _ hpK, if_pos rfl]
      rfl
    · unfold childrenOf
      rw [fget_fset_ne _ p q _ hqp, if_neg hqp]
      have := ckid q
      unfold childrenOf at this
      exact this
  have hparF : ∀ x, (fget (fset (clearFold f l) p
      { fget (clearFold f l) p with children := some [] }) x).parent =
      if x ∈ l then none else (fget f x).parent := by
    intro x
    by_cases hxp : x = p
    · subst hxp
      rw [fget_fset_self _ x _ hpK]
      show (fget (clearFold f l) x).parent = _
      rw [cpar x]
    · rw [fget_fset_ne _ p x _ hxp, cpar x]
  refine ⟨?_, ?_, ?_, ?_⟩
  · intro q x hx
    rw [hkidF q] at hx
    by_cases hqp : q = p
    · rw [if_pos hqp] at hx
      cases hx
    · rw [if_neg hqp] at hx
      have hx1 := pc1 q x hx
      have hxl : x ∉ l := by
        intro hmem
        have h2 := (pc1 p x (by rw [hlp]; exact hmem)).1
        rw [hx1.1] at h2
        injection h2 with h3
        exact hqp h3
      rw [hparF x, if_neg hxl]
      exact ⟨hx1.1, by rw [hkF]; exact hx1.2⟩
  · intro x q hxq
    rw [hparF x] at hxq
    by_cases hxl : x ∈ l
    · rw [if_pos hxl] at hxq
      cases hxq
    · rw [if_neg hxl] at hxq
      have h0 := pc2 x q hxq
      rw [hkidF q]
      by_cases hqp : q = p
      · subst hqp
        rw [hlp] at h0
        exact absurd h0 hxl
      · rw [if_neg hqp]
        exact h0
  · intro q x
    rw [hkidF q]
    by_cases hqp : q = p
    · rw [if_pos hqp]
      simp
    · rw [if_neg hqp]
      exact pc3 q x
  · intro x
    rw [hparF x]
    by_cases hxl : x ∈ l
    · rw [if_pos hxl]
      intro h0
      cases h0
    · rw [if_neg hxl]
      exact pc4 x

theorem PC_step (f f' : Forest) (op : NodeOp) (hg : GoodOp f op)
    (hPC : PCinv f) (hrun : runOp f op = .ok f') : PCinv f' := by
  cases op with
  | add p c =>
    obtain ⟨hparc, hck, hreach⟩ := hg
    have hcp : c ≠ p := fun he => hreach (he ▸ ReachesF.refl)
    cases hbr : (fget f p).children with
    | none =>
      simp only [runOp, hbr] at hrun
      cases hrun
    | some l =>
      have hp := mem_keys_of_children f p l hbr
      rw [runOp_add_eq f p c l hbr hp hcp] at hrun
      injection hrun with hrun
      subst hrun
      refine PC_addins f p c l (l ++ [c]) hbr ?_ ?_ hparc hck hcp
        ⟨(fun q x hx => ‹PCinv f›.1 q x hx), ‹PCinv f›.2.1, ‹PCinv f›.2.2.1,
          ‹PCinv f›.2.2.2⟩ _ _
      · intro a
        simp [or_comm]
      · intro a
        simp [List.count_append, List.count_singleton, beq_iff_eq]
  | insert p idx c =>
    obtain ⟨hparc, hck, hreach⟩ := hg
    have hcp : c ≠ p := fun he => hreach (he ▸ ReachesF.refl)
    cases hbr : (fget f p).children with
    | none =>
      simp only [runOp, hbr] at hrun
      cases hrun
    | some l =>
      have hp := mem_keys_of_children f p l hbr
      rw [runOp_insert_eq f p idx c l hbr hp hcp] at hrun
      injection hrun with hrun
      subst hrun
      refine PC_addins f p c l (insertPy idx c l) hbr ?_ ?_ hparc hck hcp
        hPC _ _
      · intro a
        exact insertPy_mem a c idx l
      · intro a
        rw [insertPy_count a c idx l]
  | remove p c =>
    cases hbr : (fget f p).children with
    | none =>
      simp only [runOp, hbr] at hrun
      cases hrun
    | some l =>
      by_cases hcl : c ∈ l
      · rw [runOp_remove_eq f p c l hbr hcl] at hrun
        injection hrun with hrun
        subst hrun
        exact PC_remove f p c l hbr hcl hPC _
      · simp only [runOp, hbr, if_neg hcl] at hrun
        cases hrun
  | clear p =>
    cases hbr : (fget f p).children with
    | none =>
      simp only [runOp, hbr] at hrun
      injection hrun with hrun
      subst hrun
      exact hPC
    | some l =>
      rw [runOp_clear_eq f p l hbr] at hrun
      injection hrun with hrun
      subst hrun
      exact PC_clear f p l hbr hPC

theorem PC_run (f f' : Forest) (ops : List NodeOp)
    (hrun : GoodRun f ops f') (hPC : PCinv f) : PCinv f' := by
  induction hrun with
  | nil => exact hPC
  | cons hg hok _ ih => exact ih (PC_step _ _ _ hg hPC hok)

theorem reach_closed (f : Forest) (P : Nat → Prop) (x z : Nat)
    (hx : P x) (hcl : ∀ y, P y → ∀ c ∈ childrenOf f y, P c)
    (h : ReachesF f x z) : P z := by
  induction h with
  | refl => exact hx
  | step _ h2 ih => exact hcl _ ih _ h2

/-- C9 (amended): after any successful sequence of add/insert/remove/clear
in which every added or inserted node is detached and does not contain its
new parent in its subtree, containment in a children list coincides with
the parent pointer and a node sits in at most one children list.  The
original claim's clause about re-adding an attached node is refuted by the
counterexample: add does not detach a node from its old parent. -/
theorem C9_parent_consistency_amended (f0 f : Forest) (ops : List NodeOp)
    (hPC : PCinv f0) (hrun : GoodRun f0 ops f) :
    (∀ p c, c ∈ childrenOf f p ↔ (fget f c).parent = some p) ∧
    (∀ p q c, c ∈ childrenOf f p → c ∈ childrenOf f q → p = q) := by
  obtain ⟨pc1, pc2, _, _⟩ := PC_run f0 f ops hrun hPC
  constructor
  · intro p c
    exact ⟨fun hx => (pc1 p c hx).1, fun hx => pc2 c p hx⟩
  · intro p q c hp hq
    have h1 := (pc1 p c hp).1
    have h2 := (pc1 q c hq).1
    rw [h1] at h2
    injection h2

/-- The forest after add 0 1 from F3. -/
def F3b : Forest :=
  [(0, { parent := none, rootp := none, children := some [1] }),
   (1, { parent := some 0, rootp := some 0, children := some [] }),
   (2, brN [])]

/-- The forest after add 0 1; add 1 2 from F3. -/
def F3c : Forest :=
  [(0, { parent := none, rootp := none, children := some [1] }),
   (1, { parent := some 0, rootp := some 0, children := some [2] }),
   (2, { parent := some 1, rootp := some 0, children := some [] })]

theorem childrenOf_F3 (p : Nat) : childrenOf F3 p = [] := by
  by_cases h0 : p = 0
  · subst h0; decide
  by_cases h1 : p = 1
  · subst h1; decide
  by_cases h2 : p = 2
  · subst h2; decide
  have hnm : p ∉ keysOf F3 := by
    intro hmem
    have : p = 0 ∨ p = 1 ∨ p = 2 := by
      simpa [keysOf, F3] using hmem
    tauto
  rw [childrenOf, fget_not_mem F3 p hnm]
  rfl

theorem parentOf_F3 (c : Nat) : (fget F3 c).parent = none := by
  by_cases h0 : c = 0
  · subst h0; decide
  by_cases h1 : c = 1
  · subst h1; decide
  by_cases h2 : c = 2
  · subst h2; decide
  have hnm : c ∉ keysOf F3 := by
    intro hmem
    have : c = 0 ∨ c = 1 ∨ c = 2 := by
      simpa [keysOf, F3] using hmem
    tauto
  rw [fget_not_mem F3 c hnm]

theorem PCinv_F3 : PCinv F3 := by
  refine ⟨?_, ?_, ?_, ?_⟩
  · intro p c hc
    rw [childrenOf_F3] at hc
    cases hc
  · intro c p h
    rw [parentOf_F3] at h
    cases h
  · intro p c
    rw [childrenOf_F3]
    simp
  · intro c
    rw [parentOf_F3]
    simp

theorem goodRun_F3_chain :
    GoodRun F3 [.add 0 1, .add 1 2, .remove 0 1] F3after := by
  have hnr1 : ¬ ReachesF F3 1 0 := by
    intro h
    have h2 := reach_closed F3 (fun y => y = 1) 1 0 rfl ?_ h
    · exact absurd h2 (by decide)
    · intro y hy c hc
      subst hy
      rw [show childrenOf F3 1 = [] from by decide] at hc
      cases hc
  have hnr2 : ¬ ReachesF F3b 2 1 := by
    intro h
    have h2 := reach_closed F3b (fun y => y = 2) 2 1 rfl ?_ h
    · exact absurd h2 (by decide)
    · intro y hy c hc
      subst hy
      rw [show childrenOf F3b 2 = [] from by decide] at hc
      cases hc
  refine @GoodRun.cons F3 F3b F3after (.add 0 1) [.add 1 2, .remove 0 1]
    ⟨by decide, by decide, hnr1⟩ (by decide) ?_
  refine @GoodRun.cons F3b F3c F3after (.add 1 2) [.remove 0 1]
    ⟨by decide, by decide, hnr2⟩ (by decide) ?_
  exact @GoodRun.cons F3c F3after F3after (.remove 0 1) []
    trivial (by decide) (GoodRun.nil F3after)

/-- Witness for C9 (amended) on the concrete chain run. -/
theorem C9_parent_consistency_amended_witness :
    (2 ∈ childrenOf F3after 1 ↔ (fget F3after 2).parent = some 1) ∧
    (∀ p q, 2 ∈ childrenOf F3after p → 2 ∈ childrenOf F3after q → p = q) :=
  ⟨(C9_parent_consistency_amended F3 F3after [.add 0 1, .add 1 2, .remove 0 1]
      PCinv_F3 goodRun_F3_chain).1 1 2,
   fun p q => (C9_parent_consistency_amended F3 F3after
      [.add 0 1, .add 1 2, .remove 0 1] PCinv_F3 goodRun_F3_chain).2 p q 2⟩

theorem reach_mono (f g : Forest)
    (hsub : ∀ j, childrenOf f j ⊆ childrenOf g j)
    {x y : Nat} (h : ReachesF f x y) : ReachesF g x y := by
  induction h with
  | refl => exact .refl
  | step _ hm ih => exact .step ih (hsub _ hm)

theorem reach_rank_le (f : Forest) (rank : Nat → Nat)
    (hRk : ∀ p c, c ∈ childrenOf f p → rank c < rank p)
    {x y : Nat} (h : ReachesF f x y) : rank y ≤ rank x := by
  induction h with
  | refl => exact le_refl _
  | step _ hm ih => exact le_trans (le_of_lt (hRk _ _ hm)) ih

theorem reach_prepend (f : Forest) {i c x : Nat} (hm : c ∈ childrenOf f i)
    (h : ReachesF f c x) : ReachesF f i x := by
  induction h with
  | refl => exact .step .refl hm
  | step _ hm2 ih => exact .step ih hm2

theorem reach_front (f : Forest) {i x : Nat} (h : ReachesF f i x) :
    x = i ∨ ∃ c ∈ childrenOf f i, ReachesF f c x := by
  induction h with
  | refl => exact Or.inl rfl
  | step _ hm ih =>
    rcases ih with rfl | ⟨c, hc, hcx⟩
    · exact Or.inr ⟨_, hm, .refl⟩
    · exact Or.inr ⟨c, hc, .step hcx hm⟩

/-- Pointwise agreement of the children lists with a fixed skeleton, the
part of the state _set_root leaves untouched. -/
def ChildAgree (f₀ g : Forest) : Prop := ∀ j, childrenOf g j = childrenOf f₀ j

theorem childAgree_setRoot (f₀ g : Forest) (fuel : Nat) (c : Nat)
    (rv : Option Nat) (hag : ChildAgree f₀ g) :
    ChildAgree f₀ (setRootFuel fuel g c rv) := by
  intro j
  rw [childrenOf_eq_of_strOf _ _ j (setRootFuel_struct fuel g c rv j).1]
  exact hag j

theorem setRoot_rootp_or : ∀ (fuel : Nat) (g : Forest) (i : Nat)
    (rv : Option Nat) (x : Nat),
    (fget (setRootFuel fuel g i rv) x).rootp = rv ∨
    (fget (setRootFuel fuel g i rv) x).rootp = (fget g x).rootp := by
  intro fuel
  induction fuel with
  | zero => intro g i rv x; exact Or.inr rfl
  | succ fuel ih =>
    intro g i rv x
    simp only [setRootFuel]
    set g1 := fset g i { fget g i with rootp := rv } with hg1
    have aux : ∀ (cs : List Nat) (g2 : Forest),
        (fget (cs.foldl (fun acc c => setRootFuel fuel acc c rv) g2) x).rootp
          = rv ∨
        (fget (cs.foldl (fun acc c => setRootFuel fuel acc c rv) g2) x).rootp
          = (fget g2 x).rootp := by
      intro cs
      induction cs with
      | nil => intro g2; exact Or.inr rfl
      | cons c cs ihc =>
        intro g2
        rw [List.foldl_cons]
        rcases ihc (setRootFuel fuel g2 c rv) with h | h
        · exact Or.inl h
        · rw [h]
          exact ih g2 c rv x
    rcases aux (childrenOf g1 i) g1 with h | h
    · exact Or.inl h
    · rw [h, hg1]
      by_cases hxi : x = i
      · subst hxi
        by_cases hk : x ∈ keysOf g
        · rw [fget_fset_self g x _ hk]
          exact Or.inl rfl
        · rw [fset_not_mem g x _ hk]
          exact Or.inr rfl
      · rw [fget_fset_ne g i x _ hxi]
        exact Or.inr rfl

theorem setRoot_rootp_unreached (f₀ : Forest) :
    ∀ (fuel : Nat) (g : Forest) (i : Nat) (rv : Option Nat) (x : Nat),
    ChildAgree f₀ g → ¬ ReachesF f₀ i x →
    (fget (setRootFuel fuel g i rv) x).rootp = (fget g x).rootp := by
  intro fuel
  induction fuel with
  | zero => intro g i rv x _ _; rfl
  | succ fuel ih =>
    intro g i rv x hag hnr
    have hxi : x ≠ i := fun he => hnr (he ▸ ReachesF.refl)
    simp only [setRootFuel]
    set g1 := fset g i { fget g i with rootp := rv } with hg1
    have hag1 : ChildAgree f₀ g1 := by
      intro j
      rw [hg1, childrenOf_eq_of_strOf _ _ j (strOf_fset_rootp g i rv j)]
      exact hag j
    have aux : ∀ (cs : List Nat) (g2 : Forest), ChildAgree f₀ g2 →
        (∀ c ∈ cs, ¬ ReachesF f₀ c x) →
        (fget (cs.foldl (fun acc c => setRootFuel fuel acc c rv) g2) x).rootp
          = (fget g2 x).rootp := by
      intro cs
      induction cs with
      | nil => intro g2 _ _; rfl
      | cons c cs ihc =>
        intro g2 hag2 hns
        rw [List.foldl_cons]
        have hag3 := childAgree_setRoot f₀ g2 fuel c rv hag2
        rw [ihc _ hag3 (fun c2 h2 => hns c2 (List.mem_cons_of_mem c h2))]
        exact ih g2 c rv x hag2 (hns c (List.mem_cons_self c cs))
    have hns : ∀ c ∈ childrenOf g1 i, ¬ ReachesF f₀ c x := by
      intro c hc hr
      rw [hag1 i] at hc
      exact hnr (reach_prepend f₀ hc hr)
    rw [aux _ g1 hag1 hns, hg1, fget_fset_ne g i x _ hxi]

theorem foldl_setRoot_unreached (f₀ : Forest) (fuel : Nat) (rv : Option Nat)
    (x : Nat) : ∀ (cs : List Nat) (g : Forest), ChildAgree f₀ g →
    (∀ c ∈ cs, ¬ ReachesF f₀ c x) →
    (fget (cs.foldl (fun acc c => setRootFuel fuel acc c rv) g) x).rootp =
      (fget g x).rootp := by
  intro cs
  induction cs with
  | nil => intro g _ _; rfl
  | cons c cs ihc =>
    intro g hag hns
    rw [List.foldl_cons]
    have hag2 := childAgree_setRoot f₀ g fuel c rv hag
    rw [ihc _ hag2 (fun c2 h2 => hns c2 (List.mem_cons_of_mem c h2))]
    exact setRoot_rootp_unreached f₀ fuel g c rv x hag
      (hns c (List.mem_cons_self c cs))

theorem foldl_setRoot_keep (fuel : Nat) (rv : Option Nat) (x : Nat) :
    ∀ (cs : List Nat) (g : Forest), (fget g x).rootp = rv →
    (fget (cs.foldl (fun acc c => setRootFuel fuel acc c rv) g) x).rootp =
      rv := by
  intro cs
  induction cs with
  | nil => intro g hg; exact hg
  | cons c cs ihc =>
    intro g hg
    rw [List.foldl_cons]
    apply ihc
    rcases setRoot_rootp_or fuel g c rv x with h | h
    · exact h
    · rw [h]
      exact hg

theorem setRoot_rootp_reached (f₀ : Forest) (rank : Nat → Nat)
    (hRk : ∀ p c, c ∈ childrenOf f₀ p → rank c < rank p) :
    ∀ (fuel : Nat) (g : Forest) (i : Nat) (rv : Option Nat) (x : Nat),
    ChildAgree f₀ g → (∀ n, ReachesF f₀ i n → n ∈ keysOf g) →
    rank i < fuel → ReachesF f₀ i x →
    (fget (setRootFuel fuel g i rv) x).rootp = rv := by
  intro fuel
  induction fuel with
  | zero =>
    intro g i rv x _ _ hrank _
    exact absurd hrank (Nat.not_lt_zero _)
  | succ fuel ih =>
    intro g i rv x hag hkeys hrank hreach
    simp only [setRootFuel]
    set g1 := fset g i { fget g i with rootp := rv } with hg1
    have hig : i ∈ keysOf g := hkeys i ReachesF.refl
    have hag1 : ChildAgree f₀ g1 := by
      intro j
      rw [hg1, childrenOf_eq_of_strOf _ _ j (strOf_fset_rootp g i rv j)]
      exact hag j
    have hkeys1 : keysOf g1 = keysOf g := by
      rw [hg1, keysOf_fset]
    rcases reach_front f₀ hreach with rfl | ⟨c0, hc0, hc0x⟩
    · have hni : ∀ c ∈ childrenOf g1 x, ¬ ReachesF f₀ c x := by
        intro c hc hr
        rw [hag1 x] at hc
        have h1 := reach_rank_le f₀ rank hRk hr
        have h2 := hRk x c hc
        omega
      rw [foldl_setRoot_unreached f₀ fuel rv x _ g1 hag1 hni, hg1,
        fget_fset_self g x _ hig]
    · have auxf : ∀ (cs : List Nat) (g2 : Forest), ChildAgree f₀ g2 →
          (∃ c ∈ cs, ReachesF f₀ c x ∧ rank c < fuel ∧
            (∀ n, ReachesF f₀ c n → n ∈ keysOf g2)) →
          (fget (cs.foldl (fun acc c => setRootFuel fuel acc c rv) g2)
            x).rootp = rv := by
        intro cs
        induction cs with
        | nil =>
          rintro g2 _ ⟨c, hc, _⟩
          cases hc
        | cons c1 cs ihc =>
          rintro g2 hag2 ⟨c, hc, hcx, hcr, hccl⟩
          rw [List.foldl_cons]
          rcases List.mem_cons.mp hc with rfl | hcs
          · have h1 := ih g2 c rv x hag2 hccl hcr hcx
            exact foldl_setRoot_keep fuel rv x cs _ h1
          · have hag3 := childAgree_setRoot f₀ g2 fuel c1 rv hag2
            refine ihc _ hag3 ⟨c, hcs, hcx, hcr, ?_⟩
            intro n hn
            rw [(setRootFuel_struct fuel g2 c1 rv 0).2]
            exact hccl n hn
      apply auxf (childrenOf g1 i) g1 hag1
      refine ⟨c0, by rw [hag1 i]; exact hc0, hc0x, ?_, ?_⟩
      · have h2 := hRk i c0 hc0
        omega
      · intro n hn
        rw [hkeys1]
        exact hkeys n (reach_prepend f₀ hc0 hn)

/-- C1 (amended): after r2.add(r) where r2 can have children, the add
succeeds and every node of r's subtree (r itself included) reports r2 as
its root — the _set_root pass re-propagates the new root through the whole
subtree in one depth-first pass.  The rank function witnesses the
acyclicity of the children graph, under which Python's unbounded recursion
terminates and the model's fuel is sufficient; the claim's universal
invariant over arbitrary remove/clear sequences is refuted separately. -/
theorem C1_add_root_propagation (f : Forest) (r2 r : Nat) (l : List Nat)
    (rank : Nat → Nat)
    (hRk : ∀ p c, c ∈ childrenOf f p → rank c < rank p)
    (hr2r : rank r < rank r2)
    (hbr : (fget f r2).children = some l)
    (hroot2 : (fget f r2).rootp = none)
    (hcl : ∀ n, ReachesF f r n → n ∈ keysOf f)
    (hfuel : rank r < f.length + 1) :
    ∃ f', runOp f (.add r2 r) = .ok f' ∧
      ∀ n, ReachesF f r n → rootOfF f' n = r2 := by
  have hp2 : r2 ∈ keysOf f := mem_keys_of_children f r2 l hbr
  have hrk : r ∈ keysOf f := hcl r ReachesF.refl
  have hne : r ≠ r2 := by
    intro he
    rw [he] at hr2r
    exact lt_irrefl _ hr2r
  have hlf : childrenOf f r2 = l := by
    unfold childrenOf
    rw [hbr]
    rfl
  have hr2root : rootOfF f r2 = r2 := by
    unfold rootOfF
    rw [hroot2]
    rfl
  rw [runOp_add_eq f r2 r l hbr hp2 hne, hr2root]
  refine ⟨_, rfl, ?_⟩
  intro n hn
  unfold opCore rootOfF
  set f1 := fset f r2 { fget f r2 with children := some (l ++ [r]) } with hf1
  set f2 := fset f1 r { fget f1 r with parent := some r2 } with hf2
  have hkid2 : ∀ q, childrenOf f2 q =
      if q = r2 then l ++ [r] else childrenOf f q := by
    intro q
    by_cases hqr : q = r
    · subst hqr
      rw [hf2]
      unfold childrenOf
      rw [fget_fset_self f1 q _ (by rw [hf1, keysOf_fset]; exact hrk)]
      show (fget f1 q).children.getD [] = _
      rw [hf1, fget_fset_ne f r2 q _ hne, if_neg hne]
    · rw [hf2]
      unfold childrenOf
      rw [fget_fset_ne f1 r q _ hqr]
      by_cases hq2 : q = r2
      · subst hq2
        rw [hf1, fget_fset_self f q _ hp2, if_pos rfl]
        rfl
      · rw [hf1, fget_fset_ne f r2 q _ hq2, if_neg hq2]
  have hRk2 : ∀ p c, c ∈ childrenOf f2 p → rank c < rank p := by
    intro p c hc
    rw [hkid2 p] at hc
    by_cases hp : p = r2
    · rw [if_pos hp] at hc
      subst hp
      rcases List.mem_append.mp hc with h | h
      · exact hRk p c (by rw [hlf]; exact h)
      · rw [List.mem_singleton.mp h]
        exact hr2r
    · rw [if_neg hp] at hc
      exact hRk p c hc
  have hsub : ∀ j, childrenOf f j ⊆ childrenOf f2 j := by
    intro j x hx
    rw [hkid2 j]
    by_cases hj : j = r2
    · subst hj
      rw [if_pos rfl]
      rw [hlf] at hx
      exact List.mem_append_left _ hx
    · rw [if_neg hj]
      exact hx
  have hreach2 : ReachesF f2 r n := reach_mono f f2 hsub hn
  have hrev : ∀ m, ReachesF f2 r m → ReachesF f r m := by
    intro m hm
    induction hm with
    | refl => exact .refl
    | step h1 hm2 ih =>
      rename_i j k
      rw [hkid2 j] at hm2
      by_cases hj : j = r2
      · subst hj
        have hle := reach_rank_le f rank hRk ih
        omega
      · rw [if_neg hj] at hm2
        exact .step ih hm2
  have hkeys2 : keysOf f2 = keysOf f := by
    rw [hf2, keysOf_fset, hf1, keysOf_fset]
  have hclose2 : ∀ m, ReachesF f2 r m → m ∈ keysOf f2 := by
    intro m hm
    rw [hkeys2]
    exact hcl m (hrev m hm)
  rw [setRoot_rootp_reached f2 rank hRk2 (f.length + 1) f2 r (some r2) n
    (fun j => rfl) hclose2 hfuel hreach2]
  rfl

/-- A detached two-node tree (1 with child 2) beside the branch root 0. -/
def FW : Forest :=
  [(0, brN []),
   (1, { parent := none, rootp := none, children := some [2] }),
   (2, { parent := some 1, rootp := some 1, children := some [] })]

/-- The rank function witnessing FW's acyclicity. -/
def rankFW : Nat → Nat := fun n => if n = 0 then 3 else if n = 1 then 2 else 1

/-- Witness for C1 (amended): adding the subtree rooted at 1 to node 0
re-roots both 1 and its child 2 at 0. -/
theorem C1_add_root_propagation_witness :
    ∃ f', runOp FW (.add 0 1) = .ok f' ∧
      rootOfF f' 1 = 0 ∧ rootOfF f' 2 = 0 := by
  have hRk : ∀ p c, c ∈ childrenOf FW p → rankFW c < rankFW p := by
    intro p c hc
    by_cases h0 : p = 0
    · subst h0
      rw [show childrenOf FW 0 = [] from by decide] at hc
      cases hc
    by_cases h1 : p = 1
    · subst h1
      rw [show childrenOf FW 1 = [2] from by decide] at hc
      rw [List.mem_singleton.mp hc]
      decide
    by_cases h2 : p = 2
    · subst h2
      rw [show childrenOf FW 2 = [] from by decide] at hc
      cases hc
    have hnm : p ∉ keysOf FW := by
      intro hmem
      have : p = 0 ∨ p = 1 ∨ p = 2 := by
        simpa [keysOf, FW] using hmem
      tauto
    rw [childrenOf, fget_not_mem FW p hnm] at hc
    cases hc
  have hcl : ∀ n, ReachesF FW 1 n → n ∈ keysOf FW := by
    intro n hn
    have h2 := reach_closed FW (fun y => y = 1 ∨ y = 2) 1 n (Or.inl rfl) ?_ hn
    · rcases h2 with rfl | rfl <;> decide
    · intro y hy c hc
      rcases hy with rfl | rfl
      · rw [show childrenOf FW 1 = [2] from by decide] at hc
        rw [List.mem_singleton.mp hc]
        exact Or.inr rfl
      · rw [show childrenOf FW 2 = [] from by decide] at hc
        cases hc
  obtain ⟨f', he, hall⟩ := C1_add_root_propagation FW 0 1 [] rankFW hRk
    (by decide) (by decide) (by decide) hcl (by decide)
  exact ⟨f', he, hall 1 ReachesF.refl,
    hall 2 (ReachesF.step ReachesF.refl (by decide))⟩

end Travertino
